import Mathlib

set_option maxHeartbeats 1000000

/-!
Verification of the contract-attribute code transformation pipeline.

The development shallowly embeds the transformation passes of the crate:
mode resolution, attribute-argument parsing, old-state extraction,
return-to-break rewriting with the surrounding code synthesis, assertion
message construction, the trait propagation pass, and the token-level
implication rewrite.  Rust syntax trees are modelled by small inductive
types; the `cfg!(feature = ...)` build-time flags become explicit boolean
parameters.
-/

/-- Checking-mode of a contract.  Mirrors `ContractMode` in
`src/implementation/mod.rs` (lines 24-36) and `src/lib.rs` (lines 56-69). -/
inductive ContractMode : Type where
  | Always
  | Disabled
  | Debug
  | Test
  | LogOnly
  deriving DecidableEq, Repr, Fintype

/-- The three build-time feature flags consulted via `cfg!(feature = ...)`
inside `final_mode`.  They are fixed for a whole compilation, so they are
modelled as an explicit argument. -/
structure BuildFlags : Type where
  disable_contracts : Bool
  override_debug : Bool
  override_log : Bool
  deriving DecidableEq, Repr, Fintype

/-- Translation of `final_mode` (`src/implementation/mod.rs` lines 52-72,
textually identical in `src/lib.rs` lines 85-105).  The `cfg!` tests become
field reads of the explicit `BuildFlags` argument. -/
def final_mode (flags : BuildFlags) (mode : ContractMode) : ContractMode :=
  -- disabled ones cannot be "forced", test ones should stay test, no matter what.
  if mode = ContractMode.Disabled ∨ mode = ContractMode.Test then mode
  else if flags.disable_contracts then ContractMode.Disabled
  else if flags.override_debug then
    -- log is "weaker" than debug, so keep log
    (if mode = ContractMode.LogOnly then mode else ContractMode.Debug)
  else if flags.override_log then ContractMode.LogOnly
  else mode

mutual
/-- Shallow syntax for `syn::Expr`, restricted to the node shapes the
transformation passes inspect.  `var` plays the role of `Expr::Path` with a
single identifier segment; `call` is `Expr::Call` (callee expression plus
argument list); `retE`/`retUnit` are `Expr::Return` with and without a value;
`breakE`/`breakUnit` are `Expr::Break` with a label; `labeled` is a labeled
block expression; `closure` is `Expr::Closure`; `blockE` is a block whose
trailing expression provides its value. -/
inductive RExpr : Type where
  | intLit (n : Int)
  | boolLit (b : Bool)
  | strLit (s : String)
  | var (x : String)
  | call (f : RExpr) (args : RArgs)
  | unop (op : String) (a : RExpr)
  | binop (op : String) (a : RExpr) (b : RExpr)
  | ifE (c : RExpr) (t : RExpr) (e : RExpr)
  | blockE (stmts : RArgs) (tail : RExpr)
  | retE (e : RExpr)
  | retUnit
  | breakE (l : String) (e : RExpr)
  | breakUnit (l : String)
  | labeled (l : String) (body : RExpr)
  | closure (body : RExpr)
/-- A list of expressions (argument lists, block statements). -/
inductive RArgs : Type where
  | nil
  | cons (hd : RExpr) (tl : RArgs)
end

deriving instance DecidableEq for RExpr

deriving instance Repr for RExpr

mutual
/-- Number of expressions in an argument list. -/
def RArgs.len : RArgs → Nat
  | .nil => 0
  | .cons _ t => t.len + 1
end

mutual
/-- Definition `ReturnReplacer` (`src/implementation/codegen.rs` lines 371-382): a
syntax-tree visitor that overwrites every `Expr::Return` node with a
`break` targeting the label `run`, then keeps visiting the new node, so
returns nested inside the replaced payload are rewritten as well.  The
default `visit_expr_mut` traversal descends into every child expression,
including closure bodies. -/
def replaceReturns : RExpr → RExpr
  | .retE e => .breakE "run" (replaceReturns e)
  | .retUnit => .breakUnit "run"
  | .intLit n => .intLit n
  | .boolLit b => .boolLit b
  | .strLit s => .strLit s
  | .var x => .var x
  | .call f args => .call (replaceReturns f) (replaceReturnsArgs args)
  | .unop o a => .unop o (replaceReturns a)
  | .binop o a b => .binop o (replaceReturns a) (replaceReturns b)
  | .ifE c t e => .ifE (replaceReturns c) (replaceReturns t) (replaceReturns e)
  | .blockE ss t => .blockE (replaceReturnsArgs ss) (replaceReturns t)
  | .breakE l e => .breakE l (replaceReturns e)
  | .breakUnit l => .breakUnit l
  | .labeled l b => .labeled l (replaceReturns b)
  | .closure b => .closure (replaceReturns b)
/-- Definition `ReturnReplacer` on a list of expressions. -/
def replaceReturnsArgs : RArgs → RArgs
  | .nil => .nil
  | .cons h t => .cons (replaceReturns h) (replaceReturnsArgs t)
end

mutual
/-- True when the expression tree contains no `Expr::Return` node anywhere,
including inside closure bodies. -/
def noReturns : RExpr → Bool
  | .retE _ => false
  | .retUnit => false
  | .intLit _ => true
  | .boolLit _ => true
  | .strLit _ => true
  | .var _ => true
  | .call f args => noReturns f && noReturnsArgs args
  | .unop _ a => noReturns a
  | .binop _ a b => noReturns a && noReturns b
  | .ifE c t e => noReturns c && noReturns t && noReturns e
  | .blockE ss t => noReturnsArgs ss && noReturns t
  | .breakE _ e => noReturns e
  | .breakUnit _ => true
  | .labeled _ b => noReturns b
  | .closure b => noReturns b
/-- Definition `noReturns` on a list of expressions. -/
def noReturnsArgs : RArgs → Bool
  | .nil => true
  | .cons h t => noReturns h && noReturnsArgs t
end

mutual
/-- True when no labeled block in the evaluated part of the expression uses
the reserved label `run` (closure bodies are not evaluated in place, so they
are not inspected).  User code with such a block would capture the breaks
injected by `ReturnReplacer`. -/
def noRunLabel : RExpr → Bool
  | .labeled l b => (l != "run") && noRunLabel b
  | .closure _ => true
  | .retE e => noRunLabel e
  | .retUnit => true
  | .intLit _ => true
  | .boolLit _ => true
  | .strLit _ => true
  | .var _ => true
  | .call f args => noRunLabel f && noRunLabelArgs args
  | .unop _ a => noRunLabel a
  | .binop _ a b => noRunLabel a && noRunLabel b
  | .ifE c t e => noRunLabel c && noRunLabel t && noRunLabel e
  | .blockE ss t => noRunLabelArgs ss && noRunLabel t
  | .breakE _ e => noRunLabel e
  | .breakUnit _ => true
/-- Definition `noRunLabel` on a list of expressions. -/
def noRunLabelArgs : RArgs → Bool
  | .nil => true
  | .cons h t => noRunLabel h && noRunLabelArgs t
end

/-- Runtime values of the evaluated mini-language.  A closure value is
opaque: it is never applied by the semantics, matching the fact that the
transformation never inspects it either. -/
inductive RVal : Type where
  | int (n : Int)
  | bool (b : Bool)
  | str (s : String)
  | unit
  | closureV
  deriving DecidableEq, Repr

/-- Result of evaluating one expression: normal completion, a propagating
`return`, or a propagating labeled `break`. -/
inductive Outcome : Type where
  | norm (v : RVal)
  | ret (v : RVal)
  | brk (l : String) (v : RVal)
  deriving DecidableEq, Repr

/-- Result of evaluating an argument list: either all values, or the first
escaping outcome. -/
inductive OutL : Type where
  | vals (vs : List RVal)
  | esc (o : Outcome)
  deriving DecidableEq, Repr

/-- Truthiness used by `if` conditions and assertions. -/
def asBool : RVal → Bool
  | .bool b => b
  | .int n => n != 0
  | _ => false

/-- Concrete unary operators (host-language machinery, not part of the
transformation itself). -/
def applyUnop (op : String) (v : RVal) : RVal :=
  if op = "!" then .bool (!asBool v)
  else if op = "-" then
    (match v with
     | .int n => .int (-n)
     | w => w)
  else .unit

/-- Concrete binary operators.  The lazy boolean operators are modelled
eagerly; the operands evaluated here are pure expressions, for which the
eager and short-circuit results agree. -/
def applyBinop (op : String) (v w : RVal) : RVal :=
  if op = "==" then .bool (v = w)
  else if op = "&&" then .bool (asBool v && asBool w)
  else if op = "||" then .bool (asBool v || asBool w)
  else
    (match v, w with
     | .int a, .int b =>
       if op = "+" then .int (a + b)
       else if op = "-" then .int (a - b)
       else if op = "<" then .bool (a < b)
       else if op = "<=" then .bool (a ≤ b)
       else .unit
     | _, _ => .unit)

mutual
/-- Big-step evaluation.  `funs` is an uninterpreted total interpretation of
calls (the transformation emits code, it does not interpret callees);
`env` maps identifiers to values.  A `return` produces a `ret` outcome that
propagates through every enclosing construct; a `break` with a label
propagates until a labeled block with the same label catches it. -/
def evalE (funs : RVal → List RVal → RVal) (env : String → RVal) :
    RExpr → Outcome
  | .intLit n => .norm (.int n)
  | .boolLit b => .norm (.bool b)
  | .strLit s => .norm (.str s)
  | .var x => .norm (env x)
  | .call f args =>
    (match evalE funs env f with
     | .norm fv =>
       (match evalArgs funs env args with
        | .vals vs => .norm (funs fv vs)
        | .esc o => o)
     | o => o)
  | .unop op a =>
    (match evalE funs env a with
     | .norm v => .norm (applyUnop op v)
     | o => o)
  | .binop op a b =>
    (match evalE funs env a with
     | .norm v =>
       (match evalE funs env b with
        | .norm w => .norm (applyBinop op v w)
        | o => o)
     | o => o)
  | .ifE c t e =>
    (match evalE funs env c with
     | .norm v => if asBool v then evalE funs env t else evalE funs env e
     | o => o)
  | .blockE ss t =>
    (match evalArgs funs env ss with
     | .vals _ => evalE funs env t
     | .esc o => o)
  | .retE e =>
    (match evalE funs env e with
     | .norm v => .ret v
     | o => o)
  | .retUnit => .ret .unit
  | .breakE l e =>
    (match evalE funs env e with
     | .norm v => .brk l v
     | o => o)
  | .breakUnit l => .brk l .unit
  | .labeled l body =>
    (match evalE funs env body with
     | .brk l2 v => if l2 = l then .norm v else .brk l2 v
     | o => o)
  | .closure _ => .norm .closureV
/-- Evaluation of an argument list, left to right, stopping at the first
escaping outcome. -/
def evalArgs (funs : RVal → List RVal → RVal) (env : String → RVal) :
    RArgs → OutL
  | .nil => .vals []
  | .cons h t =>
    (match evalE funs env h with
     | .norm v =>
       (match evalArgs funs env t with
        | .vals vs => .vals (v :: vs)
        | .esc o => .esc o)
     | o => .esc o)
end

/-- The effect of `ReturnReplacer` on outcomes: a propagating `return`
becomes a propagating `break` with the reserved label, everything else is
unchanged. -/
def retToBrk : Outcome → Outcome
  | .norm v => .norm v
  | .ret v => .brk "run" v
  | .brk l v => .brk l v

/-- Definition `retToBrk` lifted to argument-list results. -/
def retToBrkL : OutL → OutL
  | .vals vs => .vals vs
  | .esc o => .esc (retToBrk o)

/-- The body wrapper emitted by `generate`: the original block, with returns
replaced, inside a labeled block bound to `ret` (codegen.rs lines 320-338,
`let ret = (labeled run block)`). -/
def wrapBody (body : RExpr) : RExpr :=
  RExpr.labeled "run" (replaceReturns body)

/-- The contract kinds of the contract-model pipeline
(`src/implementation/codegen.rs` matches on `Requires`, `Ensures` and
`Invariant`); `message_name` follows the kind-to-text mapping of
`ContractType::message_name` in `src/implementation/mod.rs` lines 84-90. -/
inductive ContractType : Type where
  | Requires
  | Ensures
  | Invariant
  deriving DecidableEq, Repr

/-- The violation-message prefix of a contract kind
(`src/implementation/mod.rs` lines 84-90). -/
def ContractType.message_name : ContractType → String
  | .Requires => "Pre-condition"
  | .Ensures => "Post-condition"
  | .Invariant => "Invariant"

/-- Representation of one contract attached to a function: kind, declared
mode, assertion expressions with their rendered source text (`streams`), and
the optional trailing description. -/
structure Contract : Type where
  ty : ContractType
  mode : ContractMode
  assertions : List RExpr
  streams : List String
  desc : Option String
  deriving DecidableEq, Repr

/-- Substitution for an `old()` expression (codegen.rs lines 17-22): the
generated binder name and the captured expression. -/
structure OldExpr : Type where
  name : String
  expr : RExpr
  deriving DecidableEq, Repr

/-- State of the `OldExtractor` visitor (codegen.rs lines 28-31). -/
structure OldState : Type where
  last_id : Nat
  olds : List OldExpr
  deriving DecidableEq, Repr

mutual
/-- Definition `OldExtractor::visit_expr_mut` (codegen.rs lines 52-93).  A call node
whose callee is the path `old` and which has exactly one argument is an
old-capture: the argument is visited first (so nested old-calls resolve
inside out), the next sequential id names a fresh binder
`__contract_old_<id>`, the pair is recorded, and the call is replaced by the
binder identifier.  Any other call — including a call to `old` with zero or
several arguments — is traversed as an ordinary call via
`visit_expr_call_mut`, and every other node is traversed structurally. -/
def oldVisit (s : OldState) : RExpr → OldState × RExpr
  | .call (.var "old") (.cons a .nil) =>
    let p := oldVisit s a
    let name := "__contract_old_" ++ toString p.1.last_id
    (⟨p.1.last_id + 1, p.1.olds ++ [⟨name, p.2⟩]⟩, .var name)
  | .call f args =>
    let pf := oldVisit s f
    let pa := oldVisitArgs pf.1 args
    (pa.1, .call pf.2 pa.2)
  | .intLit n => (s, .intLit n)
  | .boolLit b => (s, .boolLit b)
  | .strLit st => (s, .strLit st)
  | .var x => (s, .var x)
  | .unop o a =>
    let p := oldVisit s a
    (p.1, .unop o p.2)
  | .binop o a b =>
    let pa := oldVisit s a
    let pb := oldVisit pa.1 b
    (pb.1, .binop o pa.2 pb.2)
  | .ifE c t e =>
    let pc := oldVisit s c
    let pt := oldVisit pc.1 t
    let pe := oldVisit pt.1 e
    (pe.1, .ifE pc.2 pt.2 pe.2)
  | .blockE ss t =>
    let ps := oldVisitArgs s ss
    let pt := oldVisit ps.1 t
    (pt.1, .blockE ps.2 pt.2)
  | .retE e =>
    let p := oldVisit s e
    (p.1, .retE p.2)
  | .retUnit => (s, .retUnit)
  | .breakE l e =>
    let p := oldVisit s e
    (p.1, .breakE l p.2)
  | .breakUnit l => (s, .breakUnit l)
  | .labeled l b =>
    let p := oldVisit s b
    (p.1, .labeled l p.2)
  | .closure b =>
    let p := oldVisit s b
    (p.1, .closure p.2)
/-- Definition `oldVisit` over an argument list, threading the visitor state. -/
def oldVisitArgs (s : OldState) : RArgs → OldState × RArgs
  | .nil => (s, .nil)
  | .cons h t =>
    let ph := oldVisit s h
    let pt := oldVisitArgs ph.1 t
    (pt.1, .cons ph.2 pt.2)
end

/-- Definition `oldVisit` over the assertion list of one contract. -/
def oldVisitList (s : OldState) : List RExpr → OldState × List RExpr
  | [] => (s, [])
  | e :: rest =>
    let p := oldVisit s e
    let pr := oldVisitList p.1 rest
    (pr.1, p.2 :: pr.2)

/-- The contract loop of `extract_old_calls` (codegen.rs lines 100-108):
contracts whose kind is not `Ensures` are skipped (`continue`), the
assertions of `Ensures` contracts are visited in order. -/
def extractGo (s : OldState) : List Contract → OldState × List Contract
  | [] => (s, [])
  | c :: rest =>
    if c.ty = ContractType.Ensures then
      let p := oldVisitList s c.assertions
      let pr := extractGo p.1 rest
      (pr.1, { c with assertions := p.2 } :: pr.2)
    else
      let pr := extractGo s rest
      (pr.1, c :: pr.2)

/-- Definition `extract_old_calls` (codegen.rs lines 27-111): run the extractor, with
ids starting at 0, over every assertion of every `Ensures` contract;
the contracts are rewritten in place and the recorded old-bindings are
returned. -/
def extract_old_calls (contracts : List Contract) :
    List Contract × List OldExpr :=
  let p := extractGo ⟨0, []⟩ contracts
  (p.2, p.1.olds)

mutual
/-- Number of well-formed old-captures (a call of the `old` path with
exactly one argument) in an expression, counting nested captures inside
the arguments of both well-formed and malformed `old` calls. -/
def countOld : RExpr → Nat
  | .call (.var "old") (.cons a .nil) => countOld a + 1
  | .call f args => countOld f + countOldArgs args
  | .intLit _ => 0
  | .boolLit _ => 0
  | .strLit _ => 0
  | .var _ => 0
  | .unop _ a => countOld a
  | .binop _ a b => countOld a + countOld b
  | .ifE c t e => countOld c + countOld t + countOld e
  | .blockE ss t => countOldArgs ss + countOld t
  | .retE e => countOld e
  | .retUnit => 0
  | .breakE _ e => countOld e
  | .breakUnit _ => 0
  | .labeled _ b => countOld b
  | .closure b => countOld b
/-- Definition `countOld` over an argument list. -/
def countOldArgs : RArgs → Nat
  | .nil => 0
  | .cons h t => countOld h + countOldArgs t
end

mutual
/-- True when the expression contains no well-formed old-capture call. -/
def noOld : RExpr → Bool
  | .call (.var "old") (.cons _ .nil) => false
  | .call f args => noOld f && noOldArgs args
  | .intLit _ => true
  | .boolLit _ => true
  | .strLit _ => true
  | .var _ => true
  | .unop _ a => noOld a
  | .binop _ a b => noOld a && noOld b
  | .ifE c t e => noOld c && noOld t && noOld e
  | .blockE ss t => noOldArgs ss && noOld t
  | .retE e => noOld e
  | .retUnit => true
  | .breakE _ e => noOld e
  | .breakUnit _ => true
  | .labeled _ b => noOld b
  | .closure b => noOld b
/-- Definition `noOld` over an argument list. -/
def noOldArgs : RArgs → Bool
  | .nil => true
  | .cons h t => noOld h && noOldArgs t
end

/-- Total number of old-captures in the `Ensures` assertions of a contract
list — the spec-level count of bindings the extractor must record. -/
def sumCountOld (cs : List Contract) : Nat :=
  (cs.map (fun c =>
    if c.ty = ContractType.Ensures then
      (c.assertions.map countOld).sum
    else 0)).sum

/-- Invariant of the extractor state: the id counter equals the number of
recorded bindings, and the binding at position `i` is named
`__contract_old_<i>`. -/
def InvSt (s : OldState) : Prop :=
  s.last_id = s.olds.length ∧
  ∀ i (h : i < s.olds.length), (s.olds.get ⟨i, h⟩).name
    = "__contract_old_" ++ toString i

/-- A singleton well-formed old-capture over the variable `x`, written
`old(x)` in source. -/
def oldCallX : RExpr :=
  RExpr.call (RExpr.var "old") (RArgs.cons (RExpr.var "x") RArgs.nil)

/-- An `Invariant` contract whose only assertion is an old-capture. -/
def invariantOldContract : Contract :=
  ⟨ContractType.Invariant, ContractMode.Always, [oldCallX], ["old(x)"], none⟩

/-- An `Ensures` contract whose only assertion is an old-capture. -/
def ensuresOldContract : Contract :=
  ⟨ContractType.Ensures, ContractMode.Always, [oldCallX], ["old(x)"], none⟩

/-- A malformed marker call `old(x, y)` (two arguments). -/
def oldCallXY : RExpr :=
  RExpr.call (RExpr.var "old")
    (RArgs.cons (RExpr.var "x") (RArgs.cons (RExpr.var "y") RArgs.nil))

/-- One emitted check: either the LogOnly diagnostic (`log::error!` on a
false condition, no abort) or an assertion-macro invocation carrying the
formatted message. -/
inductive GCheck : Type where
  | logCheck (cond : RExpr) (msg : String)
  | assertCheck (macroName : String) (cond : RExpr) (msg : String)
  deriving DecidableEq, Repr

/-- One statement of the synthesized function body. `testWrapped` is the
`#[cfg(test)] { ... }` block around Test-mode checks; `oldLet` is a
`let <name> = <expr>;` old-binding; `letRet` is `let ret = <wrapped body>;`;
`yieldRet` is the final `ret` expression. -/
inductive GStmt : Type where
  | check (c : GCheck)
  | testWrapped (cs : List GCheck)
  | oldLet (name : String) (rhs : RExpr)
  | letRet (rhs : RExpr)
  | yieldRet
  deriving DecidableEq, Repr

/-- Definition `get_assert_macro_ident` (codegen.rs lines 113-163), default build: the
`mirai_assertions` feature is off, so only the mode is consulted. -/
def get_assert_macro_ident (_ctype : ContractType) (mode : ContractMode) :
    Option String :=
  match mode with
  | ContractMode.Always => some "assert"
  | ContractMode.Debug => some "debug_assert"
  | ContractMode.Test => some "debug_assert"
  | ContractMode.Disabled => none
  | ContractMode.LogOnly => none

/-- Definition `make_assertion` (codegen.rs lines 174-214): the message is
`concat!(concat!(desc, ": "), stringify!(display))`; LogOnly adds a logging
check, the other live modes add an assertion-macro check, Test mode wraps
the result in `#[cfg(test)]`, Disabled emits nothing. -/
def make_assertion (mode : ContractMode) (ctype : ContractType)
    (display : String) (exec_expr : RExpr) (desc : String) : List GStmt :=
  let format_args := desc ++ ": " ++ display
  let result :=
    (if mode = ContractMode.LogOnly
     then [GCheck.logCheck exec_expr format_args] else [])
    ++ (match get_assert_macro_ident ctype mode with
        | some m => [GCheck.assertCheck m exec_expr format_args]
        | none => [])
  if mode = ContractMode.Test then [GStmt.testWrapped result]
  else result.map GStmt.check

/-- The contract-kind text used for checks emitted in pre position
(codegen.rs lines 225-229): invariants are qualified. -/
def preKindName (c : Contract) : String :=
  if c.ty = ContractType.Invariant
  then c.ty.message_name ++ " (as pre-condition)"
  else c.ty.message_name

/-- The contract-kind text used for checks emitted in post position
(codegen.rs lines 263-267). -/
def postKindName (c : Contract) : String :=
  if c.ty = ContractType.Invariant
  then c.ty.message_name ++ " (as post-condition)"
  else c.ty.message_name

/-- The per-contract description prefix
(codegen.rs lines 231-235 and 269-273):
`"<kind> of <fn> violated"`, with `": <desc>"` appended when the contract
carries a description. -/
def violationDesc (ctn fn : String) (d : Option String) : String :=
  match d with
  | some d => ctn ++ " of " ++ fn ++ " violated: " ++ d
  | none => ctn ++ " of " ++ fn ++ " violated"

/-- The checks of one contract: one `make_assertion` result per
(assertion, rendered-source) pair, in declaration order
(codegen.rs lines 237-251). -/
def assert_stream (flags : BuildFlags) (fn : String) (ctn : String)
    (ctype : ContractType) (c : Contract) : List GStmt :=
  ((c.assertions.zip c.streams).map (fun p =>
    make_assertion (final_mode flags c.mode) ctype p.2 p.1
      (violationDesc ctn fn c.desc))).flatten

/-- The pre-check stream of `generate` (codegen.rs lines 220-252):
contracts of kind `Requires` or `Invariant`, in declaration order. -/
def preStmts (flags : BuildFlags) (fn : String) (cs : List Contract) :
    List GStmt :=
  ((cs.filter (fun c => decide (c.ty = ContractType.Requires ∨
      c.ty = ContractType.Invariant))).map
    (fun c => assert_stream flags fn (preKindName c)
      ContractType.Requires c)).flatten

/-- The post-check stream of `generate` (codegen.rs lines 258-290):
contracts of kind `Ensures` or `Invariant`, in declaration order. -/
def postStmts (flags : BuildFlags) (fn : String) (cs : List Contract) :
    List GStmt :=
  ((cs.filter (fun c => decide (c.ty = ContractType.Ensures ∨
      c.ty = ContractType.Invariant))).map
    (fun c => assert_stream flags fn (postKindName c)
      ContractType.Ensures c)).flatten

/-- Definition `generate` (codegen.rs lines 166-369): the new function body is the
pre-check stream, then the old-bindings in recorded order, then the wrapped
original body bound to `ret`, then the post-check stream, then `ret`. -/
def generate (flags : BuildFlags) (fn : String) (cs : List Contract)
    (olds : List OldExpr) (body : RExpr) : List GStmt :=
  preStmts flags fn cs
    ++ olds.map (fun o => GStmt.oldLet o.name o.expr)
    ++ [GStmt.letRet (wrapBody body)]
    ++ postStmts flags fn cs
    ++ [GStmt.yieldRet]

/-- Environment update for a `let` binding. -/
def updateEnv (env : String → RVal) (n : String) (v : RVal) :
    String → RVal :=
  fun x => if x = n then v else env x

/-- An assertion condition holds when it evaluates normally to a true
value. -/
def condHolds (funs : RVal → List RVal → RVal) (env : String → RVal)
    (e : RExpr) : Bool :=
  match evalE funs env e with
  | .norm v => asBool v
  | _ => false

/-- Run one check.  `assert!` is always live, `debug_assert!` only in debug
builds (`dbg`); logging checks never abort.  The result is the abort
message, if any. -/
def runCheck (funs : RVal → List RVal → RVal) (dbg : Bool)
    (env : String → RVal) : GCheck → Option String
  | .logCheck _ _ => none
  | .assertCheck mac c m =>
    if (mac = "assert" ∨ (mac = "debug_assert" ∧ dbg = true)) ∧
        condHolds funs env c = false
    then some m else none

/-- Run a list of checks, returning the first abort message. -/
def runChecks (funs : RVal → List RVal → RVal) (dbg : Bool)
    (env : String → RVal) : List GCheck → Option String
  | [] => none
  | c :: rest =>
    (match runCheck funs dbg env c with
     | some m => some m
     | none => runChecks funs dbg env rest)

/-- Result of executing a statement list: fell through with a final
environment, produced the function result, aborted on a failed assertion,
or got stuck (ill-formed input). -/
inductive ExecRes : Type where
  | cont (env : String → RVal)
  | ok (v : RVal)
  | abort (msg : String)
  | stuck

/-- Execute the synthesized statements in order.  `tst` selects test
builds (whether `#[cfg(test)]` blocks are compiled in). -/
def exec (funs : RVal → List RVal → RVal) (dbg tst : Bool) :
    List GStmt → (String → RVal) → ExecRes
  | [], env => .cont env
  | .check c :: rest, env =>
    (match runCheck funs dbg env c with
     | some m => .abort m
     | none => exec funs dbg tst rest env)
  | .testWrapped cks :: rest, env =>
    if tst then
      (match runChecks funs dbg env cks with
       | some m => .abort m
       | none => exec funs dbg tst rest env)
    else exec funs dbg tst rest env
  | .oldLet n e :: rest, env =>
    (match evalE funs env e with
     | .norm v => exec funs dbg tst rest (updateEnv env n v)
     | _ => .stuck)
  | .letRet rhs :: rest, env =>
    (match evalE funs env rhs with
     | .norm v => exec funs dbg tst rest (updateEnv env "ret" v)
     | _ => .stuck)
  | .yieldRet :: _, env => .ok (env "ret")

/-- A statement is a check statement (no binding, no yield). -/
def isCheckStmt : GStmt → Bool
  | .check _ => true
  | .testWrapped _ => true
  | _ => false

/-- A statement list consisting only of checks. -/
def onlyChecks (l : List GStmt) : Bool := l.all isCheckStmt

/-- First failing message of a check-statement list under an environment. -/
def firstFailMsg (funs : RVal → List RVal → RVal) (dbg tst : Bool)
    (env : String → RVal) : List GStmt → Option String
  | [] => none
  | .check c :: rest =>
    (match runCheck funs dbg env c with
     | some m => some m
     | none => firstFailMsg funs dbg tst env rest)
  | .testWrapped cks :: rest =>
    if tst then
      (match runChecks funs dbg env cks with
       | some m => some m
       | none => firstFailMsg funs dbg tst env rest)
    else firstFailMsg funs dbg tst env rest
  | _ :: rest => firstFailMsg funs dbg tst env rest

/-- Evaluate the old-binding expressions in order, extending the
environment; `none` if some expression escapes. -/
def bindOlds (funs : RVal → List RVal → RVal) :
    (String → RVal) → List OldExpr → Option (String → RVal)
  | env, [] => some env
  | env, o :: rest =>
    (match evalE funs env o.expr with
     | .norm v => bindOlds funs (updateEnv env o.name v) rest
     | _ => none)

/-- The message carried by a check. -/
def checkMsg : GCheck → String
  | .logCheck _ m => m
  | .assertCheck _ _ m => m

/-- The messages carried by one statement. -/
def stmtMsgs : GStmt → List String
  | .check c => [checkMsg c]
  | .testWrapped cs => cs.map checkMsg
  | _ => []

/-- All assertion messages of a statement list, in order. -/
def msgsOf (l : List GStmt) : List String := (l.map stmtMsgs).flatten

/-- The message shape asserted by the specification:
`<Kind> of <function-name> violated[: <description>]: <source text>`. -/
def claimMessage (kind fn : String) (d : Option String) (src : String) :
    String :=
  kind ++ " of " ++ fn ++ " violated" ++
    (match d with
     | some s => ": " ++ s
     | none => "") ++ ": " ++ src

/-- Trivial call interpretation for concrete executions. -/
def funsW : RVal → List RVal → RVal := fun _ _ => RVal.unit

/-- Concrete starting environment: the condition variable `c` is true. -/
def envW : String → RVal := fun x => if x = "c" then RVal.bool true else RVal.unit

/-- A body with an early return nested inside an `if`:
`if c { return 1; } 2`. -/
def bodyW : RExpr :=
  RExpr.ifE (RExpr.var "c") (RExpr.retE (RExpr.intLit 1)) (RExpr.intLit 2)

/-- A post-condition contract `ret == 1`. -/
def postContractW : Contract :=
  ⟨ContractType.Ensures, ContractMode.Always,
    [RExpr.binop "==" (RExpr.var "ret") (RExpr.intLit 1)], ["ret == 1"], none⟩

/-- A pre-condition contract `x > 0` with a description, for witnesses. -/
def preContractW : Contract :=
  ⟨ContractType.Requires, ContractMode.Always,
    [RExpr.binop "<" (RExpr.intLit 0) (RExpr.var "x")], ["0 < x"],
    some "x must be positive"⟩

/-- The `{:?}` Debug rendering of one character inside a string literal
(quote and backslash escaped). -/
def escapeDebugChar (c : Char) : String :=
  if c = '\\' then "\\\\"
  else if c = '"' then "\\\""
  else String.singleton c

/-- The `{:?}` Debug rendering of a Rust string: surrounding quotes with
escaped contents. -/
def rustDebugStr (s : String) : String :=
  "\"" ++ String.join (s.data.map escapeDebugChar) ++ "\""

/-- The description built by `impl_pre` (`src/lib.rs` lines 156-160, same
shape in `src/implementation/pre.rs` lines 17-21): note the ` - ` separator
and the Debug formatting of the description. -/
def impl_pre_desc (fn : String) (d : Option String) : String :=
  match d with
  | some d => "Pre-condition of " ++ fn ++ " violated - " ++ rustDebugStr d
  | none => "Pre-condition of " ++ fn ++ " violated"

/-- The final message of `attributes_to_asserts` (`src/lib.rs` lines
383-386): `concat!(concat!(desc, ": "), stringify!(expr))`. -/
def attributes_to_asserts_msg (desc src : String) : String :=
  desc ++ ": " ++ src

/-- True when the expression is a plain string-literal expression
(`Expr::Lit` with `Lit::Str`). -/
def isStrLit : RExpr → Bool
  | .strLit _ => true
  | _ => false

/-- The description-extraction step of `parse_attributes`
(`src/implementation/parse.rs` lines 28-48, identical in `src/lib.rs`
lines 350-372): if the last parsed expression is a plain string literal it
is popped from the condition list and returned as the description,
otherwise every expression is kept and there is no description. -/
def parse_attributes_conds (conds : List RExpr) :
    List RExpr × Option String :=
  let desc :=
    match conds.getLast? with
    | some (RExpr.strLit s) => some s
    | _ => none
  match desc with
  | some s => (conds.dropLast, some s)
  | none => (conds, none)

/-- Token-level view of an attribute argument list, after expressions have
been parsed: expression items interleaved with the separating commas. -/
inductive ATok : Type where
  | comma
  | exprTok (e : RExpr)
  deriving DecidableEq, Repr

/-- Definition `Punctuated::parse_separated_nonempty`: one or more comma-separated
expressions, no trailing comma, the whole stream consumed; fails on the
empty stream. -/
def parse_separated_nonempty : List ATok → Option (List RExpr)
  | ATok.exprTok e :: rest =>
    (match rest with
     | [] => some [e]
     | ATok.comma :: rest2 =>
       (parse_separated_nonempty rest2).map (fun l => e :: l)
     | _ => none)
  | _ => none

/-- Definition `Punctuated::parse_terminated`: zero or more comma-separated
expressions with an optional trailing comma; accepts the empty stream. -/
def parse_terminated : List ATok → Option (List RExpr)
  | [] => some []
  | ATok.exprTok e :: rest =>
    (match rest with
     | [] => some [e]
     | ATok.comma :: rest2 =>
       (parse_terminated rest2).map (fun l => e :: l)
     | _ => none)
  | _ => none

/-- Definition `parse_attributes` (`src/implementation/parse.rs` lines 9-49): try the
non-empty separated parse, fall back to the terminated parse (whose failure
is a fatal `unwrap`, modelled as `none`), then split off the trailing
string-literal description. -/
def parse_attributes (attrs : List ATok) :
    Option (List RExpr × Option String) :=
  match parse_separated_nonempty attrs with
  | some conds => some (parse_attributes_conds conds)
  | none =>
    (match parse_terminated attrs with
     | some conds => some (parse_attributes_conds conds)
     | none => none)

/-- Token-level view of an assertion expression for the implication
rewrite.  Modelled from the spec: the implication rewriter itself is not
part of the sources in this tree (only described in the specification), so
its scan is reproduced from the specification text: a token is an atom, the
implication marker `==>`, or a delimited group whose inside is opaque to
the top-level scan. -/
inductive ITok : Type where
  | atom (s : String)
  | impliesTok
  | group (delim : String) (inner : List ITok)

/-- Modelled from the spec: find the first implication marker at the top
syntactic level (group interiors are not scanned), returning the token runs
before and after it. -/
def splitAtImplies : List ITok → Option (List ITok × List ITok)
  | [] => none
  | ITok.impliesTok :: rest => some ([], rest)
  | ITok.atom s :: rest =>
    (splitAtImplies rest).map (fun p => (ITok.atom s :: p.1, p.2))
  | ITok.group d i :: rest =>
    (splitAtImplies rest).map (fun p => (ITok.group d i :: p.1, p.2))

/-- Modelled from the spec: the implication rewrite.  `acc` accumulates the
antecedent tokens scanned so far (in reverse); at the first top-level
marker the expression becomes `!(antecedent) || (consequent)`, with the
consequent rewritten recursively (right associativity). -/
def rewriteImpliesGo (acc : List ITok) : List ITok → List ITok
  | [] => acc.reverse
  | ITok.impliesTok :: rest =>
    [ITok.atom "!", ITok.group "paren" acc.reverse, ITok.atom "||",
     ITok.group "paren" (rewriteImpliesGo [] rest)]
  | ITok.atom s :: rest => rewriteImpliesGo (ITok.atom s :: acc) rest
  | ITok.group d i :: rest => rewriteImpliesGo (ITok.group d i :: acc) rest

/-- Modelled from the spec: rewrite an expression token stream, eliminating
every top-level implication marker. -/
def rewriteImplies (toks : List ITok) : List ITok :=
  rewriteImpliesGo [] toks

mutual
/-- Shallow syntax for `syn::Pat`, restricted to what `arg_pat_info`
distinguishes: simple identifier patterns, tuple patterns (recursively),
tuple-struct patterns, and everything else. -/
inductive Pat : Type where
  | identP (s : String)
  | tupleP (elems : Pats)
  | tupleStructP
  | otherPat (tag : String)
/-- A list of patterns. -/
inductive Pats : Type where
  | nil
  | cons (h : Pat) (t : Pats)
end

deriving instance DecidableEq for Pat

deriving instance Repr for Pat

mutual
/-- Definition `arg_pat_info` (`src/implementation/traits.rs` lines 53-82): the call
tokens reconstructed from an argument pattern.  Identifier patterns forward
the identifier; tuple patterns parenthesize their recursively forwarded
elements, each followed by a comma; tuple-struct and any other pattern kind
abort expansion (`unimplemented!` / `panic!`), modelled as `none`. -/
def arg_pat_info : Pat → Option (List String)
  | .identP s => some [s]
  | .tupleP es => (arg_pat_infos es).map (fun ts => ["("] ++ ts ++ [")"])
  | .tupleStructP => none
  | .otherPat _ => none
/-- Definition `arg_pat_info` over tuple elements, a comma after each element. -/
def arg_pat_infos : Pats → Option (List String)
  | .nil => some []
  | .cons p t =>
    (match arg_pat_info p, arg_pat_infos t with
     | some ts, some rest => some (ts ++ [","] ++ rest)
     | _, _ => none)
end

/-- A function argument: a receiver (`self`) or a typed pattern. -/
inductive FnArg : Type where
  | receiver
  | typed (p : Pat)
  deriving DecidableEq, Repr

/-- A trait method body: either user-written (opaque) or the generated
forwarding call. -/
inductive MethodBody : Type where
  | userBody (tag : String)
  | forwardTo (callee : String) (argToks : List String)
  deriving DecidableEq, Repr

/-- A trait method: name, attached attribute renderings, inputs, and an
optional default body. -/
structure TraitMethod : Type where
  name : String
  attrs : List String
  inputs : List FnArg
  defaultBody : Option MethodBody
  deriving DecidableEq, Repr

/-- An item of a trait declaration. -/
inductive TraitItem : Type where
  | method (m : TraitMethod)
  | otherItem (tag : String)
  deriving DecidableEq, Repr

/-- Definition `contract_method_impl_name` (traits.rs lines 11-13). -/
def contract_method_impl_name (name : String) : String :=
  "__contracts_impl_" ++ name

/-- The attribute list installed on the renamed internal method
(traits.rs lines 31-35): hidden documentation markers and
`#[inline(always)]`, replacing every original attribute. -/
def rename_attrs : List String :=
  ["doc(hidden)",
   "doc = This is an internal function that is not meant to be used directly!",
   "doc = See the documentation of the `#[contract_trait]` attribute.",
   "inline(always)"]

/-- Definition `create_method_rename` (traits.rs lines 21-41): clear the attributes,
install the hidden/inline markers, and rename to the internal name.
Signature inputs and any default body are untouched. -/
def create_method_rename (m : TraitMethod) : TraitMethod :=
  { m with attrs := rename_attrs,
           name := contract_method_impl_name m.name }

/-- The forwarded argument tokens of a method (traits.rs lines 86-110): a
receiver forwards `self`, a typed argument forwards its pattern info, each
followed by a comma. -/
def method_call_args : List FnArg → Option (List String)
  | [] => some []
  | a :: rest =>
    (match (match a with
            | FnArg.receiver => some ["self"]
            | FnArg.typed p => arg_pat_info p),
           method_call_args rest with
     | some ts, some rs => some (ts ++ [","] ++ rs)
     | _, _ => none)

/-- Definition `create_method_wrapper` (traits.rs lines 47-132): keep the name and all
original attributes, and install the default body
`Self::__contracts_impl_<name>(<args>)`. -/
def create_method_wrapper (m : TraitMethod) : Option TraitMethod :=
  (method_call_args m.inputs).map (fun args =>
    { m with defaultBody := some (MethodBody.forwardTo
        ("Self::" ++ contract_method_impl_name m.name) args) })

/-- The per-method pairs of `contract_trait_item_trait`
(traits.rs lines 135-152): for every method, the renamed internal
declaration followed by the public wrapper; non-method items contribute
nothing here. -/
def trait_funcs : List TraitItem → Option (List TraitItem)
  | [] => some []
  | TraitItem.method m :: rest =>
    (match create_method_wrapper m, trait_funcs rest with
     | some w, some fs =>
       some (TraitItem.method (create_method_rename m)
         :: TraitItem.method w :: fs)
     | _, _ => none)
  | TraitItem.otherItem _ :: rest => trait_funcs rest

/-- True for method items. -/
def isMethodItem : TraitItem → Bool
  | TraitItem.method _ => true
  | _ => false

/-- Definition `contract_trait_item_trait` (traits.rs lines 16-175): all previous
methods are removed, the non-method items are kept, and the renamed/wrapper
pairs are appended. -/
def contract_trait_item_trait (items : List TraitItem) :
    Option (List TraitItem) :=
  (trait_funcs items).map (fun fs =>
    items.filter (fun it => !isMethodItem it) ++ fs)

/-- A method of an `impl` block. -/
structure ImplMethod : Type where
  name : String
  attrs : List String
  bodyTag : String
  deriving DecidableEq, Repr

/-- An item of an `impl` block. -/
inductive ImplItem : Type where
  | method (m : ImplMethod)
  | otherImplItem (tag : String)
  deriving DecidableEq, Repr

/-- Definition `contract_trait_item_impl` (traits.rs lines 179-205): every method is
renamed to the internal name; nothing else changes. -/
def contract_trait_item_impl (items : List ImplItem) : List ImplItem :=
  items.map (fun it =>
    match it with
    | ImplItem.method m =>
      ImplItem.method { m with name := contract_method_impl_name m.name }
    | other => other)

/-- A two-argument trait method for the C8 witness. -/
def methodW : TraitMethod :=
  ⟨"random_number", ["post"],
    [FnArg.typed (Pat.identP "min"), FnArg.typed (Pat.identP "max")], none⟩

/-- The C8 witness wrapper: original name and attributes, forwarding
default body. -/
def wrapperW : TraitMethod :=
  { methodW with defaultBody := some (MethodBody.forwardTo
      "Self::__contracts_impl_random_number" ["min", ",", "max", ","]) }

/-- C2: mode resolution is a pure total function of the declared mode and the
three build-time flags, with precedence: a declared Disabled or Test mode is
returned unchanged regardless of flags; otherwise the disable-all flag yields
Disabled; otherwise the force-debug flag yields Debug except that LogOnly
stays LogOnly; otherwise the force-log-only flag yields LogOnly; otherwise
the declared mode is returned unchanged. -/
theorem final_mode_precedence :
    ∀ (f : BuildFlags) (m : ContractMode),
      (final_mode f ContractMode.Disabled = ContractMode.Disabled) ∧
      (final_mode f ContractMode.Test = ContractMode.Test) ∧
      (m ≠ ContractMode.Disabled → m ≠ ContractMode.Test →
        f.disable_contracts = true →
        final_mode f m = ContractMode.Disabled) ∧
      (m ≠ ContractMode.Disabled → m ≠ ContractMode.Test →
        f.disable_contracts = false → f.override_debug = true →
        final_mode f m =
          (if m = ContractMode.LogOnly then ContractMode.LogOnly
           else ContractMode.Debug)) ∧
      (m ≠ ContractMode.Disabled → m ≠ ContractMode.Test →
        f.disable_contracts = false → f.override_debug = false →
        f.override_log = true →
        final_mode f m = ContractMode.LogOnly) ∧
      (f.disable_contracts = false → f.override_debug = false →
        f.override_log = false →
        final_mode f m = m) := by
  intro f m
  obtain ⟨a, b, c⟩ := f
  cases a <;> cases b <;> cases c <;> cases m <;> simp [final_mode]

/-- Witness for C2: with only the disable-all flag set, a declared Always
mode resolves to Disabled. -/
theorem final_mode_precedence_witness :
    final_mode ⟨true, false, false⟩ ContractMode.Always = ContractMode.Disabled :=
  (final_mode_precedence ⟨true, false, false⟩ ContractMode.Always).2.2.1
    (by decide) (by decide) (by decide)

mutual
/-- Core correctness of `ReturnReplacer`: on any expression whose evaluated
part does not already use the reserved `run` label, the rewritten expression
evaluates exactly like the original except that a propagating `return v`
becomes a propagating `break run v`. -/
theorem evalE_replaceReturns (funs : RVal → List RVal → RVal)
    (env : String → RVal) :
    ∀ (e : RExpr), noRunLabel e = true →
      evalE funs env (replaceReturns e) = retToBrk (evalE funs env e)
  | .intLit n => by intro h; simp [replaceReturns, evalE, retToBrk]
  | .boolLit b => by intro h; simp [replaceReturns, evalE, retToBrk]
  | .strLit s => by intro h; simp [replaceReturns, evalE, retToBrk]
  | .var x => by intro h; simp [replaceReturns, evalE, retToBrk]
  | .call f args => by
    intro h
    simp only [noRunLabel, Bool.and_eq_true] at h
    have hf := evalE_replaceReturns funs env f h.1
    have ha := evalArgs_replaceReturns funs env args h.2
    simp only [replaceReturns, evalE, hf, ha]
    cases evalE funs env f with
    | norm fv =>
      cases ha2 : evalArgs funs env args with
      | vals vs => simp [retToBrk, retToBrkL]
      | esc o => cases o <;> simp [retToBrk, retToBrkL]
    | ret v => simp [retToBrk]
    | brk l v => simp [retToBrk]
  | .unop op a => by
    intro h
    simp only [noRunLabel] at h
    have ha := evalE_replaceReturns funs env a h
    simp only [replaceReturns, evalE, ha]
    cases evalE funs env a <;> simp [retToBrk]
  | .binop op a b => by
    intro h
    simp only [noRunLabel, Bool.and_eq_true] at h
    have ha := evalE_replaceReturns funs env a h.1
    have hb := evalE_replaceReturns funs env b h.2
    simp only [replaceReturns, evalE, ha, hb]
    cases evalE funs env a with
    | norm v => cases evalE funs env b <;> simp [retToBrk]
    | ret v => simp [retToBrk]
    | brk l v => simp [retToBrk]
  | .ifE c t e => by
    intro h
    simp only [noRunLabel, Bool.and_eq_true] at h
    have hc := evalE_replaceReturns funs env c h.1.1
    have ht := evalE_replaceReturns funs env t h.1.2
    have he := evalE_replaceReturns funs env e h.2
    simp only [replaceReturns, evalE, hc]
    cases evalE funs env c with
    | norm v =>
      simp only [retToBrk]
      by_cases hv : asBool v = true
      · simp only [hv, if_true, ht]
        cases evalE funs env t <;> simp [retToBrk]
      · simp only [Bool.eq_false_iff.mpr hv, if_false, he]
        cases evalE funs env e <;> simp [retToBrk]
    | ret v => simp [retToBrk]
    | brk l v => simp [retToBrk]
  | .blockE ss t => by
    intro h
    simp only [noRunLabel, Bool.and_eq_true] at h
    have hs := evalArgs_replaceReturns funs env ss h.1
    have ht := evalE_replaceReturns funs env t h.2
    simp only [replaceReturns, evalE, hs]
    cases evalArgs funs env ss with
    | vals vs => simp [retToBrkL, ht]
    | esc o => cases o <;> simp [retToBrk, retToBrkL]
  | .retE e => by
    intro h
    simp only [noRunLabel] at h
    have he := evalE_replaceReturns funs env e h
    simp only [replaceReturns, evalE, he]
    cases evalE funs env e <;> simp [retToBrk]
  | .retUnit => by intro h; simp [replaceReturns, evalE, retToBrk]
  | .breakE l e => by
    intro h
    simp only [noRunLabel] at h
    have he := evalE_replaceReturns funs env e h
    simp only [replaceReturns, evalE, he]
    cases evalE funs env e <;> simp [retToBrk]
  | .breakUnit l => by intro h; simp [replaceReturns, evalE, retToBrk]
  | .labeled l b => by
    intro h
    simp only [noRunLabel, Bool.and_eq_true, bne_iff_ne, ne_eq] at h
    have hb := evalE_replaceReturns funs env b h.2
    simp only [replaceReturns, evalE, hb]
    cases evalE funs env b with
    | norm v => simp [retToBrk]
    | ret v =>
      have : ¬ ("run" = l) := fun hh => h.1 hh.symm
      simp [retToBrk, this]
    | brk l2 v =>
      simp only [retToBrk]
      by_cases hl : l2 = l
      · simp [hl, retToBrk]
      · simp [hl, retToBrk]
  | .closure b => by intro h; simp [replaceReturns, evalE, retToBrk]
/-- Lemma `evalE_replaceReturns` lifted to argument lists. -/
theorem evalArgs_replaceReturns (funs : RVal → List RVal → RVal)
    (env : String → RVal) :
    ∀ (as : RArgs), noRunLabelArgs as = true →
      evalArgs funs env (replaceReturnsArgs as) =
        retToBrkL (evalArgs funs env as)
  | .nil => by intro h; simp [replaceReturnsArgs, evalArgs, retToBrkL]
  | .cons hd tl => by
    intro h
    simp only [noRunLabelArgs, Bool.and_eq_true] at h
    have h1 := evalE_replaceReturns funs env hd h.1
    have h2 := evalArgs_replaceReturns funs env tl h.2
    simp only [replaceReturnsArgs, evalArgs, h1, h2]
    cases evalE funs env hd with
    | norm v =>
      cases evalArgs funs env tl with
      | vals vs => simp [retToBrk, retToBrkL]
      | esc o => cases o <;> simp [retToBrk, retToBrkL]
    | ret v => simp [retToBrk, retToBrkL]
    | brk l2 v => simp [retToBrk, retToBrkL]
end

mutual
/-- After `ReturnReplacer` has run, no `Expr::Return` node remains anywhere
in the tree, closure bodies included. -/
theorem noReturns_replaceReturns :
    ∀ (e : RExpr), noReturns (replaceReturns e) = true
  | .intLit n => rfl
  | .boolLit b => rfl
  | .strLit s => rfl
  | .var x => rfl
  | .call f args => by
    simp [replaceReturns, noReturns, noReturns_replaceReturns f,
      noReturnsArgs_replaceReturnsArgs args]
  | .unop op a => by
    simp [replaceReturns, noReturns, noReturns_replaceReturns a]
  | .binop op a b => by
    simp [replaceReturns, noReturns, noReturns_replaceReturns a,
      noReturns_replaceReturns b]
  | .ifE c t e => by
    simp [replaceReturns, noReturns, noReturns_replaceReturns c,
      noReturns_replaceReturns t, noReturns_replaceReturns e]
  | .blockE ss t => by
    simp [replaceReturns, noReturns, noReturnsArgs_replaceReturnsArgs ss,
      noReturns_replaceReturns t]
  | .retE e => by
    simp [replaceReturns, noReturns, noReturns_replaceReturns e]
  | .retUnit => rfl
  | .breakE l e => by
    simp [replaceReturns, noReturns, noReturns_replaceReturns e]
  | .breakUnit l => rfl
  | .labeled l b => by
    simp [replaceReturns, noReturns, noReturns_replaceReturns b]
  | .closure b => by
    simp [replaceReturns, noReturns, noReturns_replaceReturns b]
/-- Lemma `noReturns_replaceReturns` on lists of expressions. -/
theorem noReturnsArgs_replaceReturnsArgs :
    ∀ (as : RArgs), noReturnsArgs (replaceReturnsArgs as) = true
  | .nil => rfl
  | .cons h t => by
    simp [replaceReturnsArgs, noReturnsArgs, noReturns_replaceReturns h,
      noReturnsArgs_replaceReturnsArgs t]
end

/-- C9: the return-to-break rewrite applies to every `return` expression
anywhere in the body tree, including returns belonging to closures defined
inside the body — the visitor does not distinguish returns of the annotated
function from returns of nested callables. -/
theorem replaceReturns_rewrites_closure_returns :
    (∀ e : RExpr, noReturns (replaceReturns e) = true) ∧
    (∀ body : RExpr,
      replaceReturns (RExpr.closure body) = RExpr.closure (replaceReturns body)) ∧
    replaceReturns (RExpr.closure (RExpr.retE (RExpr.var "x")))
      = RExpr.closure (RExpr.breakE "run" (RExpr.var "x")) :=
  ⟨noReturns_replaceReturns, fun _ => rfl, rfl⟩

/-- Evaluating the wrapped body yields normally the value the original body
produced, whether it completed normally or exited by early `return`. -/
theorem evalE_wrapBody (funs : RVal → List RVal → RVal)
    (env : String → RVal) (body : RExpr) (v : RVal)
    (hlab : noRunLabel body = true)
    (hout : evalE funs env body = Outcome.ret v ∨
            evalE funs env body = Outcome.norm v) :
    evalE funs env (wrapBody body) = Outcome.norm v := by
  unfold wrapBody
  have h := evalE_replaceReturns funs env body hlab
  rcases hout with h2 | h2 <;>
    simp [evalE, h, h2, retToBrk]

/-- A generated binder name is never the marker name `old` itself. -/
theorem contract_old_name_ne_old (n : Nat) :
    ("__contract_old_" ++ toString n) ≠ "old" := by
  intro h
  have hlen := congrArg String.length h
  have h1 : ("__contract_old_" : String).length = 15 := by decide
  have h2 : ("old" : String).length = 3 := by decide
  simp [String.length_append, h1, h2] at hlen
  omega

/-- Visiting an argument list preserves its length. -/
theorem oldVisitArgs_len : ∀ (as : RArgs) (s : OldState),
    ((oldVisitArgs s as).2).len = as.len
  | .nil, s => rfl
  | .cons h t, s => by
    simp [oldVisitArgs, RArgs.len, oldVisitArgs_len t]

/-- An argument list of length one is a singleton. -/
theorem args_len_one (as : RArgs) (h : as.len = 1) :
    ∃ a, as = RArgs.cons a RArgs.nil := by
  cases as with
  | nil => simp [RArgs.len] at h
  | cons hd tl =>
    cases tl with
    | nil => exact ⟨hd, rfl⟩
    | cons hd2 tl2 => simp [RArgs.len] at h

/-- The visitor can only produce the bare path `old` from the bare path
`old` itself: generated binder identifiers use a reserved prefix. -/
theorem oldVisit_var_old (f : RExpr) (s : OldState)
    (h : (oldVisit s f).2 = RExpr.var "old") : f = RExpr.var "old" := by
  rw [oldVisit.eq_def] at h
  split at h
  · exact absurd (by simpa using h) (contract_old_name_ne_old _)
  · simp at h
  · simp at h
  · simp at h
  · simp at h
  · simpa using congrArg RExpr.var (by simpa using h)
  · simp at h
  · simp at h
  · simp at h
  · simp at h
  · simp at h
  · simp at h
  · simp at h
  · simp at h
  · simp at h
  · simp at h

mutual
/-- The id counter advances by exactly the number of old-captures visited. -/
theorem oldVisit_last_id : ∀ (e : RExpr) (s : OldState),
    (oldVisit s e).1.last_id = s.last_id + countOld e
  | .call (.var "old") (.cons a .nil), s => by
    simp [oldVisit, countOld, oldVisit_last_id a s]
    omega
  | .call f args, s => by
    by_cases hsp : ∃ a, f = RExpr.var "old" ∧ args = RArgs.cons a RArgs.nil
    · obtain ⟨a, hf, ha⟩ := hsp
      subst hf; subst ha
      simp [oldVisit, countOld, oldVisit_last_id a s]
      omega
    · push_neg at hsp
      rw [oldVisit.eq_2 s f args (fun a hf ha => hsp a hf ha)]
      rw [countOld.eq_2 f args (fun a hf ha => hsp a hf ha)]
      simp only []
      rw [oldVisitArgs_last_id args, oldVisit_last_id f s]
      omega
  | .intLit n, s => by simp [oldVisit, countOld]
  | .boolLit b, s => by simp [oldVisit, countOld]
  | .strLit st, s => by simp [oldVisit, countOld]
  | .var x, s => by simp [oldVisit, countOld]
  | .unop o a, s => by simp [oldVisit, countOld, oldVisit_last_id a s]
  | .binop o a b, s => by
    simp [oldVisit, countOld, oldVisit_last_id a s, oldVisit_last_id b]
    omega
  | .ifE c t e, s => by
    simp [oldVisit, countOld, oldVisit_last_id c s, oldVisit_last_id t,
      oldVisit_last_id e]
    omega
  | .blockE ss t, s => by
    simp [oldVisit, countOld, oldVisitArgs_last_id ss s, oldVisit_last_id t]
    omega
  | .retE e, s => by simp [oldVisit, countOld, oldVisit_last_id e s]
  | .retUnit, s => by simp [oldVisit, countOld]
  | .breakE l e, s => by simp [oldVisit, countOld, oldVisit_last_id e s]
  | .breakUnit l, s => by simp [oldVisit, countOld]
  | .labeled l b, s => by simp [oldVisit, countOld, oldVisit_last_id b s]
  | .closure b, s => by simp [oldVisit, countOld, oldVisit_last_id b s]
/-- Lemma `oldVisit_last_id` over argument lists. -/
theorem oldVisitArgs_last_id : ∀ (as : RArgs) (s : OldState),
    (oldVisitArgs s as).1.last_id = s.last_id + countOldArgs as
  | .nil, s => by simp [oldVisitArgs, countOldArgs]
  | .cons h t, s => by
    simp [oldVisitArgs, countOldArgs, oldVisit_last_id h s,
      oldVisitArgs_last_id t]
    omega
end

/-- Pushing one binding named after the current id preserves the state
invariant. -/
theorem inv_push (s : OldState) (x : RExpr) (hs : InvSt s) :
    InvSt ⟨s.last_id + 1,
      s.olds ++ [⟨"__contract_old_" ++ toString s.last_id, x⟩]⟩ := by
  obtain ⟨h1, h2⟩ := hs
  constructor
  · simp [h1]
  · intro i h
    simp only [List.length_append, List.length_cons, List.length_nil] at h
    rcases Nat.lt_or_ge i s.olds.length with hi | hi
    · have := h2 i hi
      simp only [List.get_eq_getElem] at this ⊢
      rw [List.getElem_append_left hi]
      exact this
    · have hieq : i = s.olds.length := by omega
      subst hieq
      simp only [List.get_eq_getElem]
      rw [List.getElem_append_right (Nat.le_refl _)]
      simp [h1]

mutual
/-- The visitor preserves the naming invariant of the extractor state. -/
theorem oldVisit_inv : ∀ (e : RExpr) (s : OldState),
    InvSt s → InvSt (oldVisit s e).1
  | .call (.var "old") (.cons a .nil), s => by
    intro hs
    have ha := oldVisit_inv a s hs
    simpa [oldVisit] using inv_push (oldVisit s a).1 (oldVisit s a).2 ha
  | .call f args, s => by
    intro hs
    by_cases hsp : ∃ a, f = RExpr.var "old" ∧ args = RArgs.cons a RArgs.nil
    · obtain ⟨a, hf, hargs⟩ := hsp
      subst hf; subst hargs
      have ha := oldVisit_inv a s hs
      simpa [oldVisit] using inv_push (oldVisit s a).1 (oldVisit s a).2 ha
    · push_neg at hsp
      rw [oldVisit.eq_2 s f args (fun a hf ha => hsp a hf ha)]
      exact oldVisitArgs_inv args _ (oldVisit_inv f s hs)
  | .intLit n, s => fun hs => hs
  | .boolLit b, s => fun hs => hs
  | .strLit st, s => fun hs => hs
  | .var x, s => fun hs => hs
  | .unop o a, s => fun hs => oldVisit_inv a s hs
  | .binop o a b, s => fun hs => oldVisit_inv b _ (oldVisit_inv a s hs)
  | .ifE c t e, s => fun hs =>
    oldVisit_inv e _ (oldVisit_inv t _ (oldVisit_inv c s hs))
  | .blockE ss t, s => fun hs => oldVisit_inv t _ (oldVisitArgs_inv ss s hs)
  | .retE e, s => fun hs => oldVisit_inv e s hs
  | .retUnit, s => fun hs => hs
  | .breakE l e, s => fun hs => oldVisit_inv e s hs
  | .breakUnit l, s => fun hs => hs
  | .labeled l b, s => fun hs => oldVisit_inv b s hs
  | .closure b, s => fun hs => oldVisit_inv b s hs
/-- Lemma `oldVisit_inv` over argument lists. -/
theorem oldVisitArgs_inv : ∀ (as : RArgs) (s : OldState),
    InvSt s → InvSt (oldVisitArgs s as).1
  | .nil, s => fun hs => hs
  | .cons h t, s => fun hs => oldVisitArgs_inv t _ (oldVisit_inv h s hs)
end

mutual
/-- After the visitor has run, no well-formed old-capture call remains in
the rewritten expression. -/
theorem oldVisit_noOld : ∀ (e : RExpr) (s : OldState),
    noOld (oldVisit s e).2 = true
  | .call (.var "old") (.cons a .nil), s => by
    simp [oldVisit, noOld]
  | .call f args, s => by
    by_cases hsp : ∃ a, f = RExpr.var "old" ∧ args = RArgs.cons a RArgs.nil
    · obtain ⟨a, hf, hargs⟩ := hsp
      subst hf; subst hargs
      simp [oldVisit, noOld]
    · push_neg at hsp
      rw [oldVisit.eq_2 s f args (fun a hf ha => hsp a hf ha)]
      simp only []
      by_cases hres : ∃ a2, (oldVisit s f).2 = RExpr.var "old" ∧
          (oldVisitArgs (oldVisit s f).1 args).2 = RArgs.cons a2 RArgs.nil
      · obtain ⟨a2, hf2, ha2⟩ := hres
        have hfold : f = RExpr.var "old" := oldVisit_var_old f s hf2
        have hlen : args.len = 1 := by
          have := oldVisitArgs_len args (oldVisit s f).1
          rw [ha2] at this
          simpa [RArgs.len] using this.symm
        obtain ⟨a0, ha0⟩ := args_len_one args hlen
        exact absurd ha0 (hsp a0 hfold)
      · push_neg at hres
        rw [noOld.eq_2 (oldVisit s f).2 (oldVisitArgs (oldVisit s f).1 args).2
          (fun a2 hf2 ha2 => hres a2 hf2 ha2)]
        simp [oldVisit_noOld f s, oldVisitArgs_noOld args]
  | .intLit n, s => rfl
  | .boolLit b, s => rfl
  | .strLit st, s => rfl
  | .var x, s => rfl
  | .unop o a, s => by simp [oldVisit, noOld, oldVisit_noOld a s]
  | .binop o a b, s => by
    simp [oldVisit, noOld, oldVisit_noOld a s, oldVisit_noOld b]
  | .ifE c t e, s => by
    simp [oldVisit, noOld, oldVisit_noOld c s, oldVisit_noOld t,
      oldVisit_noOld e]
  | .blockE ss t, s => by
    simp [oldVisit, noOld, oldVisitArgs_noOld ss s, oldVisit_noOld t]
  | .retE e, s => by simp [oldVisit, noOld, oldVisit_noOld e s]
  | .retUnit, s => rfl
  | .breakE l e, s => by simp [oldVisit, noOld, oldVisit_noOld e s]
  | .breakUnit l, s => rfl
  | .labeled l b, s => by simp [oldVisit, noOld, oldVisit_noOld b s]
  | .closure b, s => by simp [oldVisit, noOld, oldVisit_noOld b s]
/-- Lemma `oldVisit_noOld` over argument lists. -/
theorem oldVisitArgs_noOld : ∀ (as : RArgs) (s : OldState),
    noOldArgs (oldVisitArgs s as).2 = true
  | .nil, s => rfl
  | .cons h t, s => by
    simp [oldVisitArgs, noOldArgs, oldVisit_noOld h s, oldVisitArgs_noOld t]
end

/-- Visiting an assertion list advances the id counter by the total capture
count. -/
theorem oldVisitList_last_id : ∀ (l : List RExpr) (s : OldState),
    (oldVisitList s l).1.last_id = s.last_id + (l.map countOld).sum
  | [], s => by simp [oldVisitList]
  | e :: rest, s => by
    simp [oldVisitList, oldVisitList_last_id rest, oldVisit_last_id e s]
    omega

/-- Visiting an assertion list preserves the naming invariant. -/
theorem oldVisitList_inv : ∀ (l : List RExpr) (s : OldState),
    InvSt s → InvSt (oldVisitList s l).1
  | [], _s => fun hs => hs
  | e :: rest, s => fun hs => oldVisitList_inv rest _ (oldVisit_inv e s hs)

/-- Every assertion coming out of the list visitor is free of old-captures. -/
theorem oldVisitList_noOld : ∀ (l : List RExpr) (s : OldState),
    ∀ a ∈ (oldVisitList s l).2, noOld a = true
  | [], _s => by simp [oldVisitList]
  | e :: rest, s => by
    intro a ha
    simp only [oldVisitList, List.mem_cons] at ha
    rcases ha with ha | ha
    · exact ha ▸ oldVisit_noOld e s
    · exact oldVisitList_noOld rest _ a ha

/-- The contract loop keeps the contract count. -/
theorem extractGo_len : ∀ (cs : List Contract) (s : OldState),
    ((extractGo s cs).2).length = cs.length
  | [], s => rfl
  | c :: rest, s => by
    by_cases h : c.ty = ContractType.Ensures <;>
      simp [extractGo, h, extractGo_len rest]

/-- The contract loop advances the id counter by the total capture count of
the `Ensures` contracts. -/
theorem extractGo_last_id : ∀ (cs : List Contract) (s : OldState),
    (extractGo s cs).1.last_id = s.last_id + sumCountOld cs
  | [], s => by simp [extractGo, sumCountOld]
  | c :: rest, s => by
    by_cases h : c.ty = ContractType.Ensures
    · simp [extractGo, h, sumCountOld, extractGo_last_id rest,
        oldVisitList_last_id c.assertions s]
      omega
    · simp [extractGo, h, sumCountOld, extractGo_last_id rest]

/-- The contract loop preserves the naming invariant. -/
theorem extractGo_inv : ∀ (cs : List Contract) (s : OldState),
    InvSt s → InvSt (extractGo s cs).1
  | [], s => fun hs => hs
  | c :: rest, s => fun hs => by
    by_cases h : c.ty = ContractType.Ensures
    · simp only [extractGo, h, if_true]
      exact extractGo_inv rest _ (oldVisitList_inv c.assertions s hs)
    · simp only [extractGo, h, if_false]
      exact extractGo_inv rest _ hs

/-- Contracts that are not post-conditions pass through the loop unchanged,
at their original position. -/
theorem extractGo_skip : ∀ (cs : List Contract) (s : OldState) (i : Nat)
    (c : Contract), cs[i]? = some c → c.ty ≠ ContractType.Ensures →
    (extractGo s cs).2[i]? = some c
  | [], s, i, c => by simp
  | c0 :: rest, s, i, c => by
    intro hget hty
    cases i with
    | zero =>
      simp only [List.getElem?_cons_zero, Option.some_inj] at hget
      subst hget
      simp [extractGo, if_neg hty]
    | succ j =>
      simp only [List.getElem?_cons_succ] at hget
      by_cases h : c0.ty = ContractType.Ensures <;>
        simpa [extractGo, h] using extractGo_skip rest _ j c hget hty

/-- Every post-condition contract coming out of the loop has had all of its
assertions cleared of old-captures. -/
theorem extractGo_noOld : ∀ (cs : List Contract) (s : OldState)
    (c : Contract), c ∈ (extractGo s cs).2 → c.ty = ContractType.Ensures →
    ∀ a ∈ c.assertions, noOld a = true
  | [], s, c => by simp [extractGo]
  | c0 :: rest, s, c => by
    intro hmem hty a ha
    by_cases h : c0.ty = ContractType.Ensures
    · simp only [extractGo, h, if_true, List.mem_cons] at hmem
      rcases hmem with hmem | hmem
      · subst hmem
        simp only at ha
        exact oldVisitList_noOld c0.assertions s a ha
      · exact extractGo_noOld rest _ c hmem hty a ha
    · simp only [extractGo, h, if_false, List.mem_cons] at hmem
      rcases hmem with hmem | hmem
      · subst hmem; exact absurd hty h
      · exact extractGo_noOld rest _ c hmem hty a ha

/-- C3 counterexample: old-state extraction does not visit `Invariant`
contracts.  On a single Invariant contract whose assertion is the
well-formed capture `old(x)`, the extractor records no binding and leaves
the assertion untouched — the unrewritten capture call remains — refuting
the claim that every Invariant contract is visited and each unary
`old(e)` call in it replaced. -/
theorem extract_old_calls_skips_invariant :
    extract_old_calls [invariantOldContract] = ([invariantOldContract], []) ∧
    countOld oldCallX = 1 ∧
    noOld oldCallX = false :=
  ⟨rfl, rfl, rfl⟩

/-- C3 (amended): old-state extraction visits every sub-expression of every
assertion of every Post (`Ensures`) contract — and only those; `Requires`
and `Invariant` contracts are never visited and pass through unchanged.
It replaces each well-formed unary `old(e)` call with the fresh binder
`__contract_old_<N>` (ids sequential from 0, one recorded binding pair per
occurrence), and leaves a call to the marker with zero or several arguments
untouched as an ordinary call whose callee and arguments are merely
traversed. -/
theorem extract_old_calls_spec :
    ∀ (cs : List Contract),
      ((extract_old_calls cs).1.length = cs.length) ∧
      (∀ (i : Nat) (c : Contract), cs[i]? = some c →
        c.ty ≠ ContractType.Ensures →
        (extract_old_calls cs).1[i]? = some c) ∧
      (∀ c ∈ (extract_old_calls cs).1, c.ty = ContractType.Ensures →
        ∀ a ∈ c.assertions, noOld a = true) ∧
      ((extract_old_calls cs).2.length = sumCountOld cs) ∧
      (∀ i (h : i < (extract_old_calls cs).2.length),
        ((extract_old_calls cs).2.get ⟨i, h⟩).name
          = "__contract_old_" ++ toString i) ∧
      (∀ (s : OldState) (f : RExpr) (args : RArgs),
        (∀ a, f = RExpr.var "old" → args = RArgs.cons a RArgs.nil → False) →
        (oldVisit s (RExpr.call f args)).2
          = RExpr.call (oldVisit s f).2
              (oldVisitArgs (oldVisit s f).1 args).2) := by
  intro cs
  have inv0 : InvSt ⟨0, []⟩ := by
    constructor
    · rfl
    · intro i h; simp at h
  have hinv := extractGo_inv cs ⟨0, []⟩ inv0
  have hlen : (extractGo ⟨0, []⟩ cs).1.olds.length = sumCountOld cs := by
    have h1 := extractGo_last_id cs ⟨0, []⟩
    have h2 := hinv.1
    simp at h1
    omega
  refine ⟨extractGo_len cs _, ?_, ?_, ?_, ?_, ?_⟩
  · intro i c hget hty
    exact extractGo_skip cs _ i c hget hty
  · intro c hmem hty a ha
    exact extractGo_noOld cs _ c hmem hty a ha
  · exact hlen
  · intro i h
    exact hinv.2 i (by simpa [extract_old_calls] using h)
  · intro s f args hne
    rw [oldVisit.eq_2 s f args hne]

/-- Witness for the amended C3: an Invariant contract passes through
unchanged, an Ensures contract with one capture yields exactly one
binding, and the malformed two-argument call `old(x, y)` is left as an
ordinary call. -/
theorem extract_old_calls_spec_witness :
    (extract_old_calls [invariantOldContract]).1[0]?
      = some invariantOldContract ∧
    (extract_old_calls [ensuresOldContract]).2.length = 1 ∧
    (oldVisit ⟨0, []⟩ oldCallXY).2 = oldCallXY :=
  ⟨(extract_old_calls_spec [invariantOldContract]).2.1 0 invariantOldContract
      rfl (by decide),
   ((extract_old_calls_spec [ensuresOldContract]).2.2.2.1).trans (by rfl),
   ((extract_old_calls_spec []).2.2.2.2.2 ⟨0, []⟩ (RExpr.var "old")
      (RArgs.cons (RExpr.var "x") (RArgs.cons (RExpr.var "y") RArgs.nil))
      (by intro a h1 h2; simp at h2)).trans (by rfl)⟩

/-- Executing a concatenation runs the first part, then the second from the
resulting environment (unless the first part already finished). -/
theorem exec_append (funs : RVal → List RVal → RVal) (dbg tst : Bool) :
    ∀ (a b : List GStmt) (env : String → RVal),
      exec funs dbg tst (a ++ b) env =
        (match exec funs dbg tst a env with
         | .cont e2 => exec funs dbg tst b e2
         | r => r)
  | [], b, env => by simp [exec]
  | .check c :: rest, b, env => by
    simp only [List.cons_append, exec]
    cases h : runCheck funs dbg env c with
    | some m => simp
    | none => simp [exec_append funs dbg tst rest b env]
  | .testWrapped cks :: rest, b, env => by
    simp only [List.cons_append, exec]
    cases tst with
    | false => simp [exec_append funs dbg false rest b env]
    | true =>
      simp only [if_true]
      cases h : runChecks funs dbg env cks with
      | some m => simp
      | none => simp [exec_append funs dbg true rest b env]
  | .oldLet n e :: rest, b, env => by
    simp only [List.cons_append, exec]
    cases h : evalE funs env e with
    | norm v => simp [exec_append funs dbg tst rest b (updateEnv env n v)]
    | ret v => simp
    | brk l v => simp
  | .letRet rhs :: rest, b, env => by
    simp only [List.cons_append, exec]
    cases h : evalE funs env rhs with
    | norm v => simp [exec_append funs dbg tst rest b (updateEnv env "ret" v)]
    | ret v => simp
    | brk l v => simp
  | .yieldRet :: rest, b, env => by simp [exec]

/-- A check-only statement list either aborts with the first failing
message or falls through without touching the environment. -/
theorem exec_checks (funs : RVal → List RVal → RVal) (dbg tst : Bool) :
    ∀ (l : List GStmt) (env : String → RVal), onlyChecks l = true →
      exec funs dbg tst l env =
        (match firstFailMsg funs dbg tst env l with
         | some m => ExecRes.abort m
         | none => ExecRes.cont env)
  | [], env => by intro h2; simp [exec, firstFailMsg]
  | .check c :: rest, env => by
    intro h2
    simp only [onlyChecks, List.all_cons, Bool.and_eq_true, isCheckStmt] at h2
    simp only [exec, firstFailMsg]
    cases hc : runCheck funs dbg env c with
    | some m => simp
    | none => simpa using exec_checks funs dbg tst rest env h2.2
  | .testWrapped cks :: rest, env => by
    intro h2
    simp only [onlyChecks, List.all_cons, Bool.and_eq_true, isCheckStmt] at h2
    simp only [exec, firstFailMsg]
    cases tst with
    | false => simpa using exec_checks funs dbg false rest env h2.2
    | true =>
      simp only [if_true]
      cases hc : runChecks funs dbg env cks with
      | some m => simp
      | none => simpa using exec_checks funs dbg true rest env h2.2
  | .oldLet n e :: rest, env => by
    intro h2
    simp [onlyChecks, isCheckStmt] at h2
  | .letRet rhs :: rest, env => by
    intro h2
    simp [onlyChecks, isCheckStmt] at h2
  | .yieldRet :: rest, env => by
    intro h2
    simp [onlyChecks, isCheckStmt] at h2

/-- Executing the emitted old-binding lets from an environment on which
they all evaluate normally falls through to the extended environment. -/
theorem exec_oldLets (funs : RVal → List RVal → RVal) (dbg tst : Bool) :
    ∀ (olds : List OldExpr) (env env1 : String → RVal),
      bindOlds funs env olds = some env1 →
      exec funs dbg tst (olds.map (fun o => GStmt.oldLet o.name o.expr)) env
        = ExecRes.cont env1
  | [], env, env1 => by
    intro h
    simp only [bindOlds, Option.some_inj] at h
    subst h
    simp [exec]
  | o :: rest, env, env1 => by
    intro h
    simp only [bindOlds] at h
    cases he : evalE funs env o.expr with
    | norm v =>
      rw [he] at h
      simp only [List.map_cons, exec, he]
      exact exec_oldLets funs dbg tst rest _ env1 h
    | ret v => rw [he] at h; simp at h
    | brk l v => rw [he] at h; simp at h

/-- Every statement `make_assertion` emits is a check statement. -/
theorem make_assertion_onlyChecks (mode : ContractMode)
    (ctype : ContractType) (display : String) (e : RExpr) (desc : String) :
    onlyChecks (make_assertion mode ctype display e desc) = true := by
  cases mode <;>
    simp [make_assertion, get_assert_macro_ident, onlyChecks, isCheckStmt]

/-- A flattened list of check-only lists is check-only. -/
theorem onlyChecks_flatten (L : List (List GStmt))
    (h : ∀ l ∈ L, onlyChecks l = true) : onlyChecks L.flatten = true := by
  simp only [onlyChecks, List.all_eq_true] at *
  intro x hx
  rw [List.mem_flatten] at hx
  obtain ⟨l, hl, hxl⟩ := hx
  exact h l hl x hxl

/-- The check stream of one contract is check-only. -/
theorem assert_stream_onlyChecks (flags : BuildFlags) (fn ctn : String)
    (ctype : ContractType) (c : Contract) :
    onlyChecks (assert_stream flags fn ctn ctype c) = true := by
  apply onlyChecks_flatten
  intro l hl
  simp only [assert_stream, List.mem_map] at hl
  obtain ⟨p, hp, rfl⟩ := hl
  exact make_assertion_onlyChecks _ _ _ _ _

/-- The pre-check stream is check-only. -/
theorem preStmts_onlyChecks (flags : BuildFlags) (fn : String)
    (cs : List Contract) : onlyChecks (preStmts flags fn cs) = true := by
  apply onlyChecks_flatten
  intro l hl
  simp only [preStmts, List.mem_map] at hl
  obtain ⟨c, hc, rfl⟩ := hl
  exact assert_stream_onlyChecks _ _ _ _ _

/-- The post-check stream is check-only. -/
theorem postStmts_onlyChecks (flags : BuildFlags) (fn : String)
    (cs : List Contract) : onlyChecks (postStmts flags fn cs) = true := by
  apply onlyChecks_flatten
  intro l hl
  simp only [postStmts, List.mem_map] at hl
  obtain ⟨c, hc, rfl⟩ := hl
  exact assert_stream_onlyChecks _ _ _ _ _

/-- C1: in the synthesized body, an original body that completes normally
or exits through an early `return` — from any depth of nested control flow —
reaches the post-check stream with the produced value bound to `ret`:
execution either aborts with the first failing post-check message
(evaluated with `ret` bound to that value) or yields exactly that value,
after the post-checks. -/
theorem generate_early_return_reaches_post
    (funs : RVal → List RVal → RVal) (dbg tst : Bool) (flags : BuildFlags)
    (fn : String) (cs : List Contract) (olds : List OldExpr) (body : RExpr)
    (env env1 : String → RVal) (v : RVal)
    (hlab : noRunLabel body = true)
    (hpre : firstFailMsg funs dbg tst env (preStmts flags fn cs) = none)
    (holds : bindOlds funs env olds = some env1)
    (hbody : evalE funs env1 body = Outcome.ret v ∨
             evalE funs env1 body = Outcome.norm v) :
    exec funs dbg tst (generate flags fn cs olds body) env =
      (match firstFailMsg funs dbg tst (updateEnv env1 "ret" v)
          (postStmts flags fn cs) with
       | some m => ExecRes.abort m
       | none => ExecRes.ok v) := by
  have hgen : generate flags fn cs olds body
      = preStmts flags fn cs ++
          (olds.map (fun o => GStmt.oldLet o.name o.expr) ++
            (GStmt.letRet (wrapBody body) ::
              (postStmts flags fn cs ++ [GStmt.yieldRet]))) := by
    simp [generate, List.append_assoc]
  rw [hgen, exec_append]
  rw [exec_checks funs dbg tst _ env (preStmts_onlyChecks flags fn cs), hpre]
  simp only []
  rw [exec_append, exec_oldLets funs dbg tst olds env env1 holds]
  simp only []
  have hw := evalE_wrapBody funs env1 body v hlab hbody
  simp only [exec, hw]
  rw [exec_append]
  rw [exec_checks funs dbg tst _ _ (postStmts_onlyChecks flags fn cs)]
  cases hf : firstFailMsg funs dbg tst (updateEnv env1 "ret" v)
      (postStmts flags fn cs) with
  | some m => simp
  | none => simp [exec, updateEnv]

/-- Witness for C1: with the early-return body and the passing
post-condition `ret == 1`, the synthesized body yields 1. -/
theorem generate_early_return_reaches_post_witness :
    exec funsW false false
      (generate ⟨false, false, false⟩ "f" [postContractW] [] bodyW) envW
      = ExecRes.ok (RVal.int 1) := by
  have h := generate_early_return_reaches_post funsW false false
    ⟨false, false, false⟩ "f" [postContractW] [] bodyW envW envW (RVal.int 1)
    (by rfl) (by rfl) (by rfl) (Or.inl (by rfl))
  rw [h]
  rfl

/-- Lemma `msgsOf` distributes over concatenation. -/
theorem msgsOf_append (a b : List GStmt) :
    msgsOf (a ++ b) = msgsOf a ++ msgsOf b := by
  simp [msgsOf]

/-- Old-binding lets carry no assertion messages. -/
theorem msgsOf_oldLets (olds : List OldExpr) :
    msgsOf (olds.map (fun o => GStmt.oldLet o.name o.expr)) = [] := by
  induction olds with
  | nil => rfl
  | cons o rest ih =>
    simp only [List.map_cons, msgsOf, List.flatten_cons, stmtMsgs,
      List.nil_append] at *
    exact ih

/-- Every message of one emitted assertion is the formatted
`<desc>: <source text>` string. -/
theorem make_assertion_msg (mode : ContractMode) (ctype : ContractType)
    (display : String) (e : RExpr) (desc : String) (m : String) :
    m ∈ msgsOf (make_assertion mode ctype display e desc) →
    m = desc ++ ": " ++ display := by
  intro h
  cases mode <;>
    simp_all [make_assertion, get_assert_macro_ident, msgsOf, stmtMsgs, checkMsg]

/-- A message of a member statement is a message of the list. -/
theorem mem_msgsOf_of_mem (m : String) (st : GStmt) (l : List GStmt)
    (h1 : m ∈ stmtMsgs st) (h2 : st ∈ l) : m ∈ msgsOf l := by
  simp only [msgsOf, List.mem_flatten]
  exact ⟨stmtMsgs st, List.mem_map_of_mem _ h2, h1⟩

/-- Conversely, a message of a list comes from some member statement. -/
theorem mem_msgsOf_elim (m : String) (l : List GStmt)
    (h : m ∈ msgsOf l) : ∃ st ∈ l, m ∈ stmtMsgs st := by
  simp only [msgsOf, List.mem_flatten, List.mem_map] at h
  obtain ⟨s, ⟨st, hst, rfl⟩, hm⟩ := h
  exact ⟨st, hst, hm⟩

/-- The description prefix, followed by the rendered source text, is
exactly the message shape asserted by the specification. -/
theorem violationDesc_claimMessage (kind fn : String) (d : Option String)
    (src : String) :
    violationDesc kind fn d ++ ": " ++ src = claimMessage kind fn d src := by
  cases d with
  | none => simp [violationDesc, claimMessage, String.append_assoc]
  | some s =>
    simp only [violationDesc, claimMessage, String.append_assoc]
    rw [show (" violated: " : String) = " violated" ++ ": " from rfl]
    rw [String.append_assoc]

/-- A message of the check stream of one contract is the claimed shape
built from its kind text, description, and some rendered source. -/
theorem assert_stream_msg (flags : BuildFlags) (fn ctn : String)
    (ctype : ContractType) (c : Contract) (m : String)
    (h : m ∈ msgsOf (assert_stream flags fn ctn ctype c)) :
    ∃ src, m = claimMessage ctn fn c.desc src := by
  obtain ⟨st, hst, hm⟩ := mem_msgsOf_elim m _ h
  simp only [assert_stream, List.mem_flatten, List.mem_map] at hst
  obtain ⟨l, ⟨p, hp, rfl⟩, hstl⟩ := hst
  have := make_assertion_msg (final_mode flags c.mode) ctype p.2 p.1
    (violationDesc ctn fn c.desc) m (mem_msgsOf_of_mem m st _ hm hstl)
  exact ⟨p.2, this.trans (violationDesc_claimMessage ctn fn c.desc p.2)⟩

/-- C6 (amended, contract-model path): every assertion message emitted by
`generate` has the exact shape
`<Kind> of <function-name> violated[: <description>]: <source text>`,
where the kind is `Pre-condition` for a `Requires` contract,
`Post-condition` for an `Ensures` contract, and the qualified
`Invariant (as pre-condition)` / `Invariant (as post-condition)` for an
`Invariant` contract expanded into the respective position. -/
theorem generate_message_shape
    (flags : BuildFlags) (fn : String) (cs : List Contract)
    (olds : List OldExpr) (body : RExpr) (m : String)
    (h : m ∈ msgsOf (generate flags fn cs olds body)) :
    ∃ c src, c ∈ cs ∧
      ((c.ty = ContractType.Requires ∧
         m = claimMessage "Pre-condition" fn c.desc src) ∨
       (c.ty = ContractType.Ensures ∧
         m = claimMessage "Post-condition" fn c.desc src) ∨
       (c.ty = ContractType.Invariant ∧
         (m = claimMessage "Invariant (as pre-condition)" fn c.desc src ∨
          m = claimMessage "Invariant (as post-condition)" fn c.desc src))) := by
  have hsplit : m ∈ msgsOf (preStmts flags fn cs) ∨
      m ∈ msgsOf (postStmts flags fn cs) := by
    simp only [generate, msgsOf_append, msgsOf_oldLets, List.mem_append] at h
    revert h
    simp [msgsOf, stmtMsgs]
  rcases hsplit with hm | hm
  · obtain ⟨st, hst, hmst⟩ := mem_msgsOf_elim m _ hm
    simp only [preStmts, List.mem_flatten, List.mem_map] at hst
    obtain ⟨l, ⟨c, hc, rfl⟩, hstl⟩ := hst
    rw [List.mem_filter] at hc
    have hty := of_decide_eq_true hc.2
    obtain ⟨src, hsrc⟩ := assert_stream_msg flags fn (preKindName c)
      ContractType.Requires c m (mem_msgsOf_of_mem m st _ hmst hstl)
    refine ⟨c, src, hc.1, ?_⟩
    rcases hty with hty | hty
    · exact Or.inl ⟨hty, by
        rw [hsrc]; congr 1; simp [preKindName, hty, ContractType.message_name]⟩
    · refine Or.inr (Or.inr ⟨hty, Or.inl ?_⟩)
      rw [hsrc]; congr 1; simp [preKindName, hty, ContractType.message_name]
  · obtain ⟨st, hst, hmst⟩ := mem_msgsOf_elim m _ hm
    simp only [postStmts, List.mem_flatten, List.mem_map] at hst
    obtain ⟨l, ⟨c, hc, rfl⟩, hstl⟩ := hst
    rw [List.mem_filter] at hc
    have hty := of_decide_eq_true hc.2
    obtain ⟨src, hsrc⟩ := assert_stream_msg flags fn (postKindName c)
      ContractType.Ensures c m (mem_msgsOf_of_mem m st _ hmst hstl)
    refine ⟨c, src, hc.1, ?_⟩
    rcases hty with hty | hty
    · exact Or.inr (Or.inl ⟨hty, by
        rw [hsrc]; congr 1; simp [postKindName, hty, ContractType.message_name]⟩)
    · refine Or.inr (Or.inr ⟨hty, Or.inr ?_⟩)
      rw [hsrc]; congr 1; simp [postKindName, hty, ContractType.message_name]

/-- Witness for C6: the message `generate` emits for `preContractW` has the
claimed shape. -/
theorem generate_message_shape_witness :
    ∃ c src, c ∈ [preContractW] ∧
      ((c.ty = ContractType.Requires ∧
         "Pre-condition of f violated: x must be positive: 0 < x"
           = claimMessage "Pre-condition" "f" c.desc src) ∨
       (c.ty = ContractType.Ensures ∧
         "Pre-condition of f violated: x must be positive: 0 < x"
           = claimMessage "Post-condition" "f" c.desc src) ∨
       (c.ty = ContractType.Invariant ∧
         ("Pre-condition of f violated: x must be positive: 0 < x"
            = claimMessage "Invariant (as pre-condition)" "f" c.desc src ∨
          "Pre-condition of f violated: x must be positive: 0 < x"
            = claimMessage "Invariant (as post-condition)" "f" c.desc src))) :=
  generate_message_shape ⟨false, false, false⟩ "f" [preContractW] []
    (RExpr.intLit 0)
    "Pre-condition of f violated: x must be positive: 0 < x" (by decide)

/-- C6 counterexample: the direct expansion path of `lib.rs` (`impl_pre`
with `attributes_to_asserts`) formats a described pre-condition as
`Pre-condition of <fn> violated - "<desc>": <src>` — a ` - ` separator and
Debug quotes — which is not the claimed
`Pre-condition of <fn> violated: <desc>: <src>` shape. -/
theorem impl_pre_message_shape_cex :
    attributes_to_asserts_msg (impl_pre_desc "f" (some "d")) "x > 0"
      = "Pre-condition of f violated - \"d\": x > 0" ∧
    attributes_to_asserts_msg (impl_pre_desc "f" (some "d")) "x > 0"
      ≠ claimMessage "Pre-condition" "f" (some "d") "x > 0" ∧
    claimMessage "Pre-condition" "f" (some "d") "x > 0"
      = "Pre-condition of f violated: d: x > 0" := by
  refine ⟨by decide, by decide, by decide⟩

/-- C7: the synthesized body is exactly: all pre-position checks in
contract-declaration order, then the old-binding lets in ascending id
order, then the wrapped original body bound to `ret`, then all
post-position checks in contract-declaration order, then `ret` — and
`generate` is a pure function of this input, so the same input always
yields this same statement list. -/
theorem generate_statement_order
    (flags : BuildFlags) (fn : String) (cs cs2 : List Contract)
    (olds : List OldExpr) (body : RExpr)
    (hx : extract_old_calls cs = (cs2, olds)) :
    (generate flags fn cs2 olds body
      = preStmts flags fn cs2
        ++ olds.map (fun o => GStmt.oldLet o.name o.expr)
        ++ [GStmt.letRet (wrapBody body)]
        ++ postStmts flags fn cs2
        ++ [GStmt.yieldRet]) ∧
    (∀ i (h : i < olds.length),
      (olds.get ⟨i, h⟩).name = "__contract_old_" ++ toString i) ∧
    (∀ (c : Contract) (rest : List Contract), preStmts flags fn (c :: rest)
      = (if c.ty = ContractType.Requires ∨ c.ty = ContractType.Invariant
         then assert_stream flags fn (preKindName c) ContractType.Requires c
         else []) ++ preStmts flags fn rest) ∧
    (∀ (c : Contract) (rest : List Contract), postStmts flags fn (c :: rest)
      = (if c.ty = ContractType.Ensures ∨ c.ty = ContractType.Invariant
         then assert_stream flags fn (postKindName c) ContractType.Ensures c
         else []) ++ postStmts flags fn rest) := by
  refine ⟨rfl, ?_, ?_, ?_⟩
  · intro i h
    have h5 := (extract_old_calls_spec cs).2.2.2.2.1
    rw [hx] at h5
    exact h5 i h
  · intro c rest
    by_cases hty : c.ty = ContractType.Requires ∨ c.ty = ContractType.Invariant
    · simp [preStmts, List.filter_cons, hty]
    · simp [preStmts, List.filter_cons, hty]
  · intro c rest
    by_cases hty : c.ty = ContractType.Ensures ∨ c.ty = ContractType.Invariant
    · simp [postStmts, List.filter_cons, hty]
    · simp [postStmts, List.filter_cons, hty]

/-- Witness for C7: for the one-capture post contract, the single
old-binding emitted is named `__contract_old_0`. -/
theorem generate_statement_order_witness :
    (([⟨"__contract_old_0", RExpr.var "x"⟩] : List OldExpr).get
        ⟨0, Nat.one_pos⟩).name = "__contract_old_0" :=
  ((generate_statement_order ⟨false, false, false⟩ "f" [ensuresOldContract]
      [{ ensuresOldContract with
          assertions := [RExpr.var "__contract_old_0"] }]
      [⟨"__contract_old_0", RExpr.var "x"⟩] (RExpr.intLit 0) rfl).2.1 0
      Nat.one_pos).trans (by decide)

/-- C5: when the last parsed expression is a plain string literal, exactly
that literal becomes the description and all preceding expressions are
kept, in order, as assertions; when the final expression is anything else
(including when string literals occur only in non-final positions, since
the prefix is arbitrary), there is no description and every expression is
kept in order. -/
theorem parse_attributes_desc_extraction :
    (∀ (xs : List RExpr) (s : String),
      parse_attributes_conds (xs ++ [RExpr.strLit s]) = (xs, some s)) ∧
    (∀ (xs : List RExpr) (e : RExpr), isStrLit e = false →
      parse_attributes_conds (xs ++ [e]) = (xs ++ [e], none)) ∧
    parse_attributes_conds [] = ([], none) := by
  refine ⟨?_, ?_, rfl⟩
  · intro xs s
    simp [parse_attributes_conds, List.getLast?_concat, List.dropLast_concat]
  · intro xs e he
    cases e <;>
      simp_all [parse_attributes_conds, isStrLit, List.getLast?_concat]

/-- Witness for C5: a trailing string literal is split off as the
description; a non-final string literal is kept as an assertion. -/
theorem parse_attributes_desc_extraction_witness :
    parse_attributes_conds [RExpr.var "a", RExpr.strLit "desc"]
      = ([RExpr.var "a"], some "desc") ∧
    parse_attributes_conds [RExpr.strLit "mid", RExpr.var "b"]
      = ([RExpr.strLit "mid", RExpr.var "b"], none) :=
  ⟨parse_attributes_desc_extraction.1 [RExpr.var "a"] "desc",
   parse_attributes_desc_extraction.2.1 [RExpr.strLit "mid"]
     (RExpr.var "b") rfl⟩

/-- C10: on the empty attribute argument stream, the non-empty separated
parse fails, the comma-terminated fallback accepts and returns no
expressions, and `parse_attributes` succeeds with no assertions and no
description — an attribute with no arguments produces zero checks instead
of an expansion-time error. -/
theorem parse_attributes_empty_stream :
    parse_separated_nonempty [] = none ∧
    parse_terminated [] = some [] ∧
    parse_attributes [] = some ([], none) :=
  ⟨rfl, rfl, rfl⟩

/-- The scanning loop of the implication rewrite, related to the top-level
split: without a marker the stream is emitted unchanged behind the
accumulator; with a marker the result is the negated antecedent, `||`, and
the recursively rewritten consequent, both parenthesized. -/
theorem rewriteImpliesGo_spec : ∀ (toks acc : List ITok),
    (splitAtImplies toks = none →
      rewriteImpliesGo acc toks = acc.reverse ++ toks) ∧
    (∀ l r, splitAtImplies toks = some (l, r) →
      rewriteImpliesGo acc toks =
        [ITok.atom "!", ITok.group "paren" (acc.reverse ++ l),
         ITok.atom "||", ITok.group "paren" (rewriteImplies r)])
  | [], acc => by
    constructor
    · intro h; simp [rewriteImpliesGo]
    · intro l r h; simp [splitAtImplies] at h
  | ITok.impliesTok :: rest, acc => by
    constructor
    · intro h; simp [splitAtImplies] at h
    · intro l r h
      simp only [splitAtImplies, Option.some_inj, Prod.mk.injEq] at h
      obtain ⟨hl, hr⟩ := h
      subst hl; subst hr
      simp [rewriteImpliesGo, rewriteImplies]
  | ITok.atom s :: rest, acc => by
    constructor
    · intro h
      simp only [splitAtImplies, Option.map_eq_none'] at h
      have := (rewriteImpliesGo_spec rest (ITok.atom s :: acc)).1 h
      simp only [rewriteImpliesGo, this, List.reverse_cons]
      simp
    · intro l r h
      simp only [splitAtImplies, Option.map_eq_some'] at h
      obtain ⟨⟨l2, r2⟩, hsplit, heq⟩ := h
      simp only [Prod.mk.injEq] at heq
      obtain ⟨hl, hr⟩ := heq
      subst hl; subst hr
      have := (rewriteImpliesGo_spec rest (ITok.atom s :: acc)).2 l2 r2 hsplit
      simp only [rewriteImpliesGo, this, List.reverse_cons]
      simp
  | ITok.group d i :: rest, acc => by
    constructor
    · intro h
      simp only [splitAtImplies, Option.map_eq_none'] at h
      have := (rewriteImpliesGo_spec rest (ITok.group d i :: acc)).1 h
      simp only [rewriteImpliesGo, this, List.reverse_cons]
      simp
    · intro l r h
      simp only [splitAtImplies, Option.map_eq_some'] at h
      obtain ⟨⟨l2, r2⟩, hsplit, heq⟩ := h
      simp only [Prod.mk.injEq] at heq
      obtain ⟨hl, hr⟩ := heq
      subst hl; subst hr
      have := (rewriteImpliesGo_spec rest (ITok.group d i :: acc)).2 l2 r2 hsplit
      simp only [rewriteImpliesGo, this, List.reverse_cons]
      simp

/-- C4: whenever an assertion token stream contains the implication marker
at the top syntactic level, the expression handed on is
`!(antecedent) || (consequent)` with the consequent rewritten recursively —
right-associative — so `A ==> B ==> C` becomes `!(A) || (!(B) || (C))`;
a stream without a top-level marker is left unchanged. -/
theorem rewriteImplies_spec :
    (∀ (toks l r : List ITok), splitAtImplies toks = some (l, r) →
      rewriteImplies toks
        = [ITok.atom "!", ITok.group "paren" l, ITok.atom "||",
           ITok.group "paren" (rewriteImplies r)]) ∧
    (∀ toks : List ITok, splitAtImplies toks = none →
      rewriteImplies toks = toks) ∧
    rewriteImplies [ITok.atom "A", ITok.impliesTok, ITok.atom "B",
        ITok.impliesTok, ITok.atom "C"]
      = [ITok.atom "!", ITok.group "paren" [ITok.atom "A"], ITok.atom "||",
         ITok.group "paren"
           [ITok.atom "!", ITok.group "paren" [ITok.atom "B"],
            ITok.atom "||", ITok.group "paren" [ITok.atom "C"]]] := by
  refine ⟨?_, ?_, rfl⟩
  · intro toks l r h
    simpa using (rewriteImpliesGo_spec toks []).2 l r h
  · intro toks h
    simpa using (rewriteImpliesGo_spec toks []).1 h

/-- Witness for C4: a single top-level marker `A ==> B` is rewritten to
`!(A) || (B)`. -/
theorem rewriteImplies_spec_witness :
    rewriteImplies [ITok.atom "A", ITok.impliesTok, ITok.atom "B"]
      = [ITok.atom "!", ITok.group "paren" [ITok.atom "A"], ITok.atom "||",
         ITok.group "paren" (rewriteImplies [ITok.atom "B"])] :=
  rewriteImplies_spec.1 _ [ITok.atom "A"] [ITok.atom "B"] rfl

/-- Every input method contributes its renamed declaration and its wrapper
to the generated pairs. -/
theorem trait_funcs_mem_intro : ∀ (items fs : List TraitItem),
    trait_funcs items = some fs → ∀ m, TraitItem.method m ∈ items →
    TraitItem.method (create_method_rename m) ∈ fs ∧
    ∃ w, create_method_wrapper m = some w ∧ TraitItem.method w ∈ fs
  | [], fs => by simp
  | TraitItem.method m0 :: rest, fs => by
    intro h m hm
    simp only [trait_funcs] at h
    cases hw : create_method_wrapper m0 with
    | none => rw [hw] at h; simp at h
    | some w0 =>
      rw [hw] at h
      cases hf : trait_funcs rest with
      | none => rw [hf] at h; simp at h
      | some fs2 =>
        rw [hf] at h
        simp only [Option.some_inj] at h
        subst h
        simp only [List.mem_cons] at hm
        rcases hm with hm | hm
        · have hmm : m = m0 := by injection hm
          subst hmm
          exact ⟨by simp, w0, hw, by simp⟩
        · obtain ⟨h1, w, h2, h3⟩ := trait_funcs_mem_intro rest fs2 hf m hm
          exact ⟨by simp [h1], w, h2, by simp [h3]⟩
  | TraitItem.otherItem t :: rest, fs => by
    intro h m hm
    simp only [trait_funcs] at h
    simp only [List.mem_cons] at hm
    rcases hm with hm | hm
    · cases hm
    · exact trait_funcs_mem_intro rest fs h m hm

/-- Conversely, every generated method is the rename or the wrapper of some
input method. -/
theorem trait_funcs_mem_elim : ∀ (items fs : List TraitItem),
    trait_funcs items = some fs → ∀ m2, TraitItem.method m2 ∈ fs →
    ∃ m, TraitItem.method m ∈ items ∧
      (m2 = create_method_rename m ∨ create_method_wrapper m = some m2)
  | [], fs => by
    intro h m2 hm
    simp only [trait_funcs, Option.some_inj] at h
    subst h
    simp at hm
  | TraitItem.method m0 :: rest, fs => by
    intro h m2 hm
    simp only [trait_funcs] at h
    cases hw : create_method_wrapper m0 with
    | none => rw [hw] at h; simp at h
    | some w0 =>
      rw [hw] at h
      cases hf : trait_funcs rest with
      | none => rw [hf] at h; simp at h
      | some fs2 =>
        rw [hf] at h
        simp only [Option.some_inj] at h
        subst h
        simp only [List.mem_cons] at hm
        rcases hm with hm | hm | hm
        · have hmm : m2 = create_method_rename m0 := by
            injection hm with hh
          exact ⟨m0, by simp, Or.inl hmm⟩
        · have hmm : m2 = w0 := by
            injection hm with hh
          subst hmm
          exact ⟨m0, by simp, Or.inr hw⟩
        · obtain ⟨m, h1, h2⟩ := trait_funcs_mem_elim rest fs2 hf m2 hm
          exact ⟨m, by simp [h1], h2⟩
  | TraitItem.otherItem t :: rest, fs => by
    intro h m2 hm
    simp only [trait_funcs] at h
    obtain ⟨m, h1, h2⟩ := trait_funcs_mem_elim rest fs h m2 hm
    exact ⟨m, by simp [h1], h2⟩

/-- The generated pairs contain only method items. -/
theorem trait_funcs_all_method : ∀ (items fs : List TraitItem),
    trait_funcs items = some fs → ∀ it ∈ fs, isMethodItem it = true
  | [], fs => by
    intro h it hit
    simp only [trait_funcs, Option.some_inj] at h
    subst h
    simp at hit
  | TraitItem.method m0 :: rest, fs => by
    intro h it hit
    simp only [trait_funcs] at h
    cases hw : create_method_wrapper m0 with
    | none => rw [hw] at h; simp at h
    | some w0 =>
      rw [hw] at h
      cases hf : trait_funcs rest with
      | none => rw [hf] at h; simp at h
      | some fs2 =>
        rw [hf] at h
        simp only [Option.some_inj] at h
        subst h
        simp only [List.mem_cons] at hit
        rcases hit with hit | hit | hit
        · subst hit; rfl
        · subst hit; rfl
        · exact trait_funcs_all_method rest fs2 hf it hit
  | TraitItem.otherItem t :: rest, fs => by
    intro h it hit
    simp only [trait_funcs] at h
    exact trait_funcs_all_method rest fs h it hit

/-- The generated pairs are twice as many as the input methods. -/
theorem trait_funcs_length : ∀ (items fs : List TraitItem),
    trait_funcs items = some fs →
    fs.length = 2 * (items.filter (fun it => isMethodItem it)).length
  | [], fs => by
    intro h
    simp only [trait_funcs, Option.some_inj] at h
    subst h
    simp
  | TraitItem.method m0 :: rest, fs => by
    intro h
    simp only [trait_funcs] at h
    cases hw : create_method_wrapper m0 with
    | none => rw [hw] at h; simp at h
    | some w0 =>
      rw [hw] at h
      cases hf : trait_funcs rest with
      | none => rw [hf] at h; simp at h
      | some fs2 =>
        rw [hf] at h
        simp only [Option.some_inj] at h
        subst h
        simp only [List.filter_cons]
        rw [if_pos (show isMethodItem (TraitItem.method m0) = true from rfl)]
        simp only [List.length_cons]
        rw [trait_funcs_length rest fs2 hf]
        omega
  | TraitItem.otherItem t :: rest, fs => by
    intro h
    simp only [trait_funcs] at h
    simp only [List.filter_cons, isMethodItem]
    simpa using trait_funcs_length rest fs h

/-- Non-method items filtered for methods give nothing. -/
theorem filter_nonmethod_methods (l : List TraitItem) :
    (l.filter (fun it => !isMethodItem it)).filter
      (fun it => isMethodItem it) = [] := by
  induction l with
  | nil => rfl
  | cons it rest ih => cases it <;> simp [isMethodItem, ih]

/-- C8: for a contract-marked trait, the transformation replaces every
method by exactly two declarations — the renamed internal one
(`__contracts_impl_<name>`, original attributes replaced by the hidden
markers and `#[inline(always)]`) and a public one keeping the original
name and all original attributes, with a generated default body forwarding
the receiver (if present) and every argument to the internal name.
Non-method items are preserved; every output method traces back to an
input method as its rename or its wrapper.  For a marked impl block, every
method is only renamed, with no other change. -/
theorem contract_trait_transform :
    (∀ (items out : List TraitItem),
      contract_trait_item_trait items = some out →
      ((out.filter (fun it => isMethodItem it)).length
        = 2 * (items.filter (fun it => isMethodItem it)).length) ∧
      (∀ m, TraitItem.method m ∈ items →
        TraitItem.method (create_method_rename m) ∈ out ∧
        ∃ w, create_method_wrapper m = some w ∧ TraitItem.method w ∈ out) ∧
      (∀ m2, TraitItem.method m2 ∈ out →
        ∃ m, TraitItem.method m ∈ items ∧
          (m2 = create_method_rename m ∨
           create_method_wrapper m = some m2)) ∧
      (∀ it, isMethodItem it = false → (it ∈ out ↔ it ∈ items))) ∧
    (∀ m, (create_method_rename m).name = contract_method_impl_name m.name ∧
      (create_method_rename m).attrs = rename_attrs ∧
      (create_method_rename m).inputs = m.inputs ∧
      (create_method_rename m).defaultBody = m.defaultBody) ∧
    (∀ m w, create_method_wrapper m = some w →
      w.name = m.name ∧ w.attrs = m.attrs ∧ w.inputs = m.inputs ∧
      ∃ args, method_call_args m.inputs = some args ∧
        w.defaultBody = some (MethodBody.forwardTo
          ("Self::" ++ contract_method_impl_name m.name) args)) ∧
    (∀ (imp : List ImplItem), contract_trait_item_impl imp
      = imp.map (fun it =>
          match it with
          | ImplItem.method m =>
            ImplItem.method { m with name := contract_method_impl_name m.name }
          | other => other)) := by
  refine ⟨?_, ?_, ?_, fun imp => rfl⟩
  · intro items out hout
    simp only [contract_trait_item_trait, Option.map_eq_some'] at hout
    obtain ⟨fs, hfs, hcat⟩ := hout
    subst hcat
    refine ⟨?_, ?_, ?_, ?_⟩
    · rw [List.filter_append, List.length_append, filter_nonmethod_methods]
      rw [List.filter_eq_self.mpr (trait_funcs_all_method items fs hfs)]
      simp [trait_funcs_length items fs hfs]
    · intro m hm
      obtain ⟨h1, w, h2, h3⟩ := trait_funcs_mem_intro items fs hfs m hm
      exact ⟨by simp [h1], w, h2, by simp [h3]⟩
    · intro m2 hm2
      rw [List.mem_append] at hm2
      rcases hm2 with hm2 | hm2
      · rw [List.mem_filter] at hm2
        simp [isMethodItem] at hm2
      · exact trait_funcs_mem_elim items fs hfs m2 hm2
    · intro it hit
      rw [List.mem_append, List.mem_filter]
      constructor
      · intro h
        rcases h with h | h
        · exact h.1
        · have := trait_funcs_all_method items fs hfs it h
          rw [this] at hit
          cases hit
      · intro h
        exact Or.inl ⟨h, by simp [hit]⟩
  · intro m
    exact ⟨rfl, rfl, rfl, rfl⟩
  · intro m w hw
    simp only [create_method_wrapper, Option.map_eq_some'] at hw
    obtain ⟨args, hargs, hw2⟩ := hw
    subst hw2
    exact ⟨rfl, rfl, rfl, args, hargs, rfl⟩

/-- Witness for C8: applying the trait transformation to a one-method
trait produces the rename and the wrapper. -/
theorem contract_trait_transform_witness :
    TraitItem.method (create_method_rename methodW)
      ∈ ([TraitItem.method (create_method_rename methodW),
          TraitItem.method wrapperW] : List TraitItem) ∧
    create_method_wrapper methodW = some wrapperW :=
  ⟨((contract_trait_transform.1 [TraitItem.method methodW]
      [TraitItem.method (create_method_rename methodW),
       TraitItem.method wrapperW] rfl).2.1 methodW (by simp)).1,
   rfl⟩

